import Mathlib

/-!
# SetDB: a shallow embedding of the storage core, checked against its specification

SetDB maps Redis-style aggregate commands onto a single ordered byte-keyed
store (LevelDB via levigo).  This file embeds the parts of the Go source that
the specification's claims are about — the key codec (`core/key_buffer.go`,
`commands.go`), the byte-sortable float codec (`zset.go`), the zset/set
engines (`zset.go`, `set.go`), the command table and dispatcher
(`commands.go`, `protocol.go`) — as executable Lean definitions, and proves
or refutes each claim.

Conventions:
* A byte string is `List Nat` with entries `< 256` where it matters.
* The ordered store is a list of `(key, value)` records kept strictly sorted
  by byte-lexicographic key order, mirroring the LevelDB contract the spec
  gives in §4.2 (point get, atomic batches, sorted forward iteration).
* IEEE-754 doubles are represented by their 64-bit patterns as `Nat`; the
  effect of Go float operations on the bit pattern is spelled out where used
  (`math.Float64bits (-f)` flips the sign bit, etc.).  String↔float
  conversions (`strconv.ParseFloat`, `ftoa`) are passed in as parameters
  where an engine needs them, and instantiated with small tables at concrete
  inputs.
-/

set_option maxRecDepth 4000

namespace SetDB

/-- Byte strings: lists of byte values. -/
abbrev Bytes := List Nat

/-- Go `bytes.Compare(a, b) == -1`: strict byte-lexicographic order
(shorter prefix sorts first). -/
def bytesLt : Bytes → Bytes → Bool
  | [], [] => false
  | [], _ :: _ => true
  | _ :: _, [] => false
  | a :: as, b :: bs => if a < b then true else if b < a then false else bytesLt as bs

theorem bytesLt_irrefl (a : Bytes) : bytesLt a a = false := by
  induction a with
  | nil => rfl
  | cons x xs ih => simp [bytesLt, ih]

theorem bytesLt_trans {a b c : Bytes} (h₁ : bytesLt a b = true)
    (h₂ : bytesLt b c = true) : bytesLt a c = true := by
  induction a generalizing b c with
  | nil =>
    cases b with
    | nil => simp [bytesLt] at h₁
    | cons y ys =>
      cases c with
      | nil => simp [bytesLt] at h₂
      | cons z zs => rfl
  | cons x xs ih =>
    cases b with
    | nil => simp [bytesLt] at h₁
    | cons y ys =>
      cases c with
      | nil => simp [bytesLt] at h₂
      | cons z zs =>
        simp only [bytesLt] at h₁ h₂ ⊢
        rcases Nat.lt_trichotomy x y with hxy | rfl | hxy
        · rcases Nat.lt_trichotomy y z with hyz | rfl | hyz
          · rw [if_pos (Nat.lt_trans hxy hyz)]
          · rw [if_pos hxy]
          · rw [if_neg (Nat.lt_asymm hyz), if_pos hyz] at h₂
            exact Bool.noConfusion h₂
        · rw [if_neg (Nat.lt_irrefl x), if_neg (Nat.lt_irrefl x)] at h₁
          rcases Nat.lt_trichotomy x z with hxz | rfl | hxz
          · rw [if_pos hxz]
          · rw [if_neg (Nat.lt_irrefl x), if_neg (Nat.lt_irrefl x)] at h₂
            rw [if_neg (Nat.lt_irrefl x), if_neg (Nat.lt_irrefl x)]
            exact ih h₁ h₂
          · rw [if_neg (Nat.lt_asymm hxz), if_pos hxz] at h₂
            exact Bool.noConfusion h₂
        · rw [if_neg (Nat.lt_asymm hxy), if_pos hxy] at h₁
          exact Bool.noConfusion h₁

theorem bytesLt_total {a b : Bytes} (hne : a ≠ b) :
    bytesLt a b = true ∨ bytesLt b a = true := by
  induction a generalizing b with
  | nil =>
    cases b with
    | nil => exact absurd rfl hne
    | cons y ys => left; rfl
  | cons x xs ih =>
    cases b with
    | nil => right; rfl
    | cons y ys =>
      by_cases hxy : x < y
      · left; simp [bytesLt, hxy]
      · by_cases hyx : y < x
        · right; simp [bytesLt, hyx]
        · have hxe : x = y := Nat.le_antisymm (Nat.le_of_not_lt hyx) (Nat.le_of_not_lt hxy)
          subst hxe
          have hne' : xs ≠ ys := fun h => hne (by rw [h])
          rcases ih hne' with h | h
          · left; simp [bytesLt, h]
          · right; simp [bytesLt, h]

theorem bytesLt_asymm {a b : Bytes} (h : bytesLt a b = true) : bytesLt b a = false := by
  by_contra hc
  have hba : bytesLt b a = true := by
    cases hx : bytesLt b a
    · exact absurd hx hc
    · rfl
  have := bytesLt_trans h hba
  rw [bytesLt_irrefl] at this
  exact Bool.noConfusion this

theorem ne_of_bytesLt {a b : Bytes} (h : bytesLt a b = true) : a ≠ b := by
  intro he
  subst he
  rw [bytesLt_irrefl] at h
  exact Bool.noConfusion h

/-- Appending a common prefix preserves the order. -/
theorem bytesLt_append_left (p a b : Bytes) :
    bytesLt (p ++ a) (p ++ b) = bytesLt a b := by
  induction p with
  | nil => rfl
  | cons x xs ih => simp [bytesLt, ih]

/-! ## Big-endian integer byte encoding

`encoding/binary`'s `BigEndian.PutUint64` / `PutUint32` write an unsigned
integer as fixed-width big-endian bytes; `Uint64`/`Uint32` read them back.
`natToBE k n` is the `k`-byte big-endian encoding, most significant first. -/

def natToBE : Nat → Nat → Bytes
  | 0, _ => []
  | k + 1, n => n / 256 ^ k :: natToBE k (n % 256 ^ k)

/-- `binary.BigEndian.Uint64` (and `Uint32`): read big-endian bytes as a Nat. -/
def beToNat : Bytes → Nat
  | [] => 0
  | b :: bs => b * 256 ^ bs.length + beToNat bs

theorem natToBE_length (k n : Nat) : (natToBE k n).length = k := by
  induction k generalizing n with
  | zero => rfl
  | succ k ih => simp [natToBE, ih]

theorem beToNat_natToBE (k n : Nat) (h : n < 256 ^ k) :
    beToNat (natToBE k n) = n := by
  induction k generalizing n with
  | zero => simp [natToBE, beToNat]; omega
  | succ k ih =>
    have hm : n % 256 ^ k < 256 ^ k := Nat.mod_lt _ (Nat.pos_pow_of_pos _ (by norm_num))
    simp only [natToBE, beToNat, natToBE_length, ih _ hm]
    exact Nat.div_add_mod' n (256 ^ k)

theorem natToBE_head_lt (k n : Nat) (h : n < 256 ^ (k + 1)) :
    n / 256 ^ k < 256 := by
  have h2 : 256 ^ (k + 1) = 256 ^ k * 256 := by ring
  exact Nat.div_lt_of_lt_mul (by omega)

/-- Every byte of a big-endian encoding is below 256
(for the bytes after the first this holds unconditionally). -/
theorem natToBE_mem_lt (k n : Nat) (h : n < 256 ^ k) :
    ∀ v ∈ natToBE k n, v < 256 := by
  induction k generalizing n with
  | zero => intro v hv; simp [natToBE] at hv
  | succ k ih =>
    intro v hv
    simp only [natToBE, List.mem_cons] at hv
    rcases hv with rfl | hv
    · exact natToBE_head_lt k n h
    · exact ih _ (Nat.mod_lt _ (Nat.pos_pow_of_pos _ (by norm_num))) v hv

/-- Byte-lexicographic comparison of equal-width big-endian encodings is
numeric comparison. -/
theorem bytesLt_natToBE (k a b : Nat) (ha : a < 256 ^ k) (hb : b < 256 ^ k) :
    bytesLt (natToBE k a) (natToBE k b) = true ↔ a < b := by
  induction k generalizing a b with
  | zero =>
    simp [natToBE, bytesLt]
    omega
  | succ k ih =>
    simp only [natToBE, bytesLt]
    have hda := Nat.div_add_mod' a (256 ^ k)
    have hdb := Nat.div_add_mod' b (256 ^ k)
    have hma : a % 256 ^ k < 256 ^ k := Nat.mod_lt _ (Nat.pos_pow_of_pos _ (by norm_num))
    have hmb : b % 256 ^ k < 256 ^ k := Nat.mod_lt _ (Nat.pos_pow_of_pos _ (by norm_num))
    rcases Nat.lt_trichotomy (a / 256 ^ k) (b / 256 ^ k) with hq | hq | hq
    · rw [if_pos hq]
      simp only [eq_self_iff_true, true_iff]
      calc a < a / 256 ^ k * 256 ^ k + 256 ^ k := by omega
        _ = (a / 256 ^ k + 1) * 256 ^ k := by ring
        _ ≤ b / 256 ^ k * 256 ^ k := Nat.mul_le_mul_right _ hq
        _ ≤ b := by omega
    · rw [hq] at hda
      rw [hq, if_neg (Nat.lt_irrefl _), if_neg (Nat.lt_irrefl _)]
      rw [ih _ _ hma hmb]
      omega
    · rw [if_neg (Nat.lt_asymm hq), if_pos hq]
      simp only [Bool.false_eq_true, false_iff, Nat.not_lt]
      refine Nat.le_of_lt ?_
      calc b < b / 256 ^ k * 256 ^ k + 256 ^ k := by omega
        _ = (b / 256 ^ k + 1) * 256 ^ k := by ring
        _ ≤ a / 256 ^ k * 256 ^ k := Nat.mul_le_mul_right _ hq
        _ ≤ a := by omega

/-! ## The byte-sortable float codec (`zset.go`: `writeByteSortableFloat` /
`readByteSortableFloat`)

A double is represented by its 64-bit IEEE-754 pattern (a `Nat < 2 ^ 64`):
bit 63 is the sign, bits 52–62 the exponent, bits 0–51 the mantissa.
`math.Float64bits` is the identity on this representation, and
`math.Float64bits (-f) = Float64bits f XOR 2 ^ 63` (IEEE negation flips
exactly the sign bit), which we write arithmetically as `negBits`.
`math.Signbit f` is `2 ^ 63 ≤ bits f`. -/

/-- Bit pattern of the IEEE negation `-f`: flip the sign bit. -/
def negBits (b : Nat) : Nat := if b < 2 ^ 63 then b + 2 ^ 63 else b - 2 ^ 63

/-- The exponent field is not all-ones: the double is neither ±Inf nor NaN. -/
def IsFiniteDouble (b : Nat) : Prop := b < 2 ^ 64 ∧ (b / 2 ^ 52) % 2 ^ 11 ≠ 2047

instance (b : Nat) : Decidable (IsFiniteDouble b) := by
  unfold IsFiniteDouble; infer_instance

/-- `writeByteSortableFloat` from `zset.go`: if the sign bit is set, write the
raw bits big-endian and flip every byte (`v ^ 255`); otherwise write the bits
of the negated float (sign bit set) unflipped. -/
def writeByteSortableFloat (b : Nat) : Bytes :=
  if 2 ^ 63 ≤ b then (natToBE 8 b).map (fun v => v ^^^ 255)
  else natToBE 8 (negBits b)

/-- `readByteSortableFloat` from `zset.go`: if the first byte is below `0x80`,
flip every byte and read the bits; otherwise read the bits and negate the
float (flip the sign bit).  (The Go code indexes `b[0]`; the empty case is
unreachable on 8-byte inputs.) -/
def readByteSortableFloat (b : Bytes) : Nat :=
  match b with
  | [] => 0
  | b0 :: _ =>
    if b0 < 0x80 then beToNat (b.map (fun v => v ^^^ 255))
    else negBits (beToNat b)

/-- `v ^^^ 255` on a byte is complement: `255 - v`. -/
theorem xor255_eq (v : Nat) (h : v < 256) : v ^^^ 255 = 255 - v := by
  revert v
  decide

/-- Flipping every byte of a `k`-byte big-endian encoding encodes the
complement: the flipped bytes and `n` sum to `256 ^ k - 1`. -/
theorem beToNat_map_xor255_add (k n : Nat) (h : n < 256 ^ k) :
    beToNat ((natToBE k n).map (fun v => v ^^^ 255)) + n = 256 ^ k - 1 := by
  induction k generalizing n with
  | zero => simp [natToBE, beToNat]; omega
  | succ k ih =>
    have hm : n % 256 ^ k < 256 ^ k := Nat.mod_lt _ (Nat.pos_pow_of_pos _ (by norm_num))
    have hq : n / 256 ^ k < 256 := natToBE_head_lt k n h
    have hsum := ih _ hm
    have hd := Nat.div_add_mod' n (256 ^ k)
    have hmul : (255 - n / 256 ^ k) * 256 ^ k + n / 256 ^ k * 256 ^ k = 255 * 256 ^ k := by
      rw [← Nat.add_mul]
      congr 1
      omega
    have hpow : 256 ^ (k + 1) = 256 * 256 ^ k := by ring
    simp only [natToBE, List.map_cons, beToNat, List.length_map, natToBE_length,
      xor255_eq _ hq]
    have hkpos : 0 < 256 ^ k := Nat.pos_pow_of_pos _ (by norm_num)
    rw [hpow]
    omega

theorem beToNat_map_xor255 (k n : Nat) (h : n < 256 ^ k) :
    beToNat ((natToBE k n).map (fun v => v ^^^ 255)) = 256 ^ k - 1 - n := by
  have := beToNat_map_xor255_add k n h
  omega

/-- Flipping every byte of a big-endian encoding is the encoding of the
complement (byte complements never borrow). -/
theorem map_xor255_natToBE (k n : Nat) (h : n < 256 ^ k) :
    (natToBE k n).map (fun v => v ^^^ 255) = natToBE k (256 ^ k - 1 - n) := by
  induction k generalizing n with
  | zero => rfl
  | succ k ih =>
    have hm : n % 256 ^ k < 256 ^ k := Nat.mod_lt _ (Nat.pos_pow_of_pos _ (by norm_num))
    have hq : n / 256 ^ k < 256 := natToBE_head_lt k n h
    have hd := Nat.div_add_mod' n (256 ^ k)
    have hkpos : 0 < 256 ^ k := Nat.pos_pow_of_pos _ (by norm_num)
    have hpow : 256 ^ (k + 1) = 256 * 256 ^ k := by ring
    have hN : 256 ^ (k + 1) - 1 - n
        = (256 ^ k - 1 - n % 256 ^ k) + (255 - n / 256 ^ k) * 256 ^ k := by
      have hmul : (255 - n / 256 ^ k) * 256 ^ k + n / 256 ^ k * 256 ^ k = 255 * 256 ^ k := by
        rw [← Nat.add_mul]; congr 1; omega
      rw [hpow] at h ⊢
      omega
    simp only [natToBE, List.map_cons, xor255_eq _ hq, ih _ hm, hN]
    have h1 : (256 ^ k - 1 - n % 256 ^ k + (255 - n / 256 ^ k) * 256 ^ k) / 256 ^ k
        = 255 - n / 256 ^ k := by
      rw [Nat.add_mul_div_right _ _ hkpos, Nat.div_eq_of_lt (by omega)]
      omega
    have h2 : (256 ^ k - 1 - n % 256 ^ k + (255 - n / 256 ^ k) * 256 ^ k) % 256 ^ k
        = 256 ^ k - 1 - n % 256 ^ k := by
      rw [Nat.add_mul_mod_self_right, Nat.mod_eq_of_lt (by omega)]
    rw [h1, h2]

/-- The value whose big-endian bytes `writeByteSortableFloat` emits:
all-flipped bits for negatives, sign-flipped bits for positives. -/
def sortableNat (b : Nat) : Nat :=
  if 2 ^ 63 ≤ b then 2 ^ 64 - 1 - b else b + 2 ^ 63

theorem pow256_8 : (256 : Nat) ^ 8 = 2 ^ 64 := by norm_num

theorem writeByteSortableFloat_eq (b : Nat) (h : b < 2 ^ 64) :
    writeByteSortableFloat b = natToBE 8 (sortableNat b) := by
  unfold writeByteSortableFloat sortableNat
  by_cases hs : 2 ^ 63 ≤ b
  · rw [if_pos hs, if_pos hs, map_xor255_natToBE 8 b (by rw [pow256_8]; exact h), pow256_8]
  · rw [if_neg hs, if_neg hs]
    unfold negBits
    rw [if_pos (by omega)]

theorem sortableNat_lt (b : Nat) (h : b < 2 ^ 64) : sortableNat b < 2 ^ 64 := by
  unfold sortableNat
  split <;> omega

/-- The IEEE-754 `<` on finite doubles, expressed on bit patterns:
sign-magnitude order with `-0.0` and `+0.0` comparing equal.  This is the
specification-side meaning of "`a < b` numerically"; it is the standard
characterization of IEEE comparison for non-NaN values. -/
def floatLt (a b : Nat) : Prop :=
  if 2 ^ 63 ≤ a then
    if 2 ^ 63 ≤ b then b % 2 ^ 63 < a % 2 ^ 63        -- both negative
    else ¬(a % 2 ^ 63 = 0 ∧ b % 2 ^ 63 = 0)           -- negative < positive unless both ±0
  else
    if 2 ^ 63 ≤ b then False                          -- positive < negative: never
    else a % 2 ^ 63 < b % 2 ^ 63                      -- both positive

instance (a b : Nat) : Decidable (floatLt a b) := by
  unfold floatLt; infer_instance

/-- C2 (counterexample): at `a = -0.0` (bits `2 ^ 63`) and `b = +0.0` (bits
`0`) — both finite doubles — the encoding of `a` is lexicographically smaller
than the encoding of `b`, yet `a < b` does not hold numerically (IEEE compares
`-0.0` and `+0.0` equal).  So the claimed equivalence "`encode a < encode b`
lexicographically iff `a < b` numerically" fails over the claimed quantifier
range. -/
theorem c2_counterexample_negzero_poszero :
    IsFiniteDouble (2 ^ 63) ∧ IsFiniteDouble 0 ∧
    bytesLt (writeByteSortableFloat (2 ^ 63)) (writeByteSortableFloat 0) = true ∧
    ¬ floatLt (2 ^ 63) 0 := by
  refine ⟨by decide, by decide, by decide, by decide⟩

/-- C2 (amended): the codec round-trips every finite double bit-exactly, and
the byte-lexicographic order of encodings matches IEEE numeric order on
finite doubles except at the single boundary pair `(-0.0, +0.0)`:
`encode a < encode b` iff `a < b` numerically, or `a = -0.0 ∧ b = +0.0`. -/
theorem c2_sortable_float_roundtrip_and_order (a b : Nat)
    (ha : IsFiniteDouble a) (hb : IsFiniteDouble b) :
    readByteSortableFloat (writeByteSortableFloat a) = a ∧
    (bytesLt (writeByteSortableFloat a) (writeByteSortableFloat b) = true ↔
      (floatLt a b ∨ (a = 2 ^ 63 ∧ b = 0))) := by
  obtain ⟨ha64, -⟩ := ha
  obtain ⟨hb64, -⟩ := hb
  constructor
  · -- round-trip
    unfold writeByteSortableFloat
    by_cases hs : 2 ^ 63 ≤ a
    · rw [if_pos hs]
      have hcons : natToBE 8 a = a / 256 ^ 7 :: natToBE 7 (a % 256 ^ 7) := rfl
      have hhead : a / 256 ^ 7 < 256 := natToBE_head_lt 7 a (by rw [← pow256_8] at ha64; exact ha64)
      have hheadge : 128 ≤ a / 256 ^ 7 := by
        have : (2 : Nat) ^ 63 / 2 ^ 56 ≤ a / 2 ^ 56 := Nat.div_le_div_right hs
        norm_num at this
        exact this
      have hx : ∀ v : Nat, v ^^^ 255 ^^^ 255 = v := by
        intro v
        rw [Nat.xor_assoc, Nat.xor_self, Nat.xor_zero]
      have hmapmap : ∀ l : Bytes,
          (l.map (fun v => v ^^^ 255)).map (fun v => v ^^^ 255) = l := by
        intro l
        rw [List.map_map]
        have hfun : ((fun v : Nat => v ^^^ 255) ∘ fun v : Nat => v ^^^ 255) = id := by
          funext v
          simp only [Function.comp, id]
          exact hx v
        rw [hfun, List.map_id]
      rw [hcons]
      simp only [List.map_cons, readByteSortableFloat]
      rw [if_pos (by rw [xor255_eq _ hhead]; omega)]
      rw [hx (a / 256 ^ 7), hmapmap, ← hcons, beToNat_natToBE 8 a (by rw [pow256_8]; exact ha64)]
    · rw [if_neg hs]
      have hneg : negBits a = a + 2 ^ 63 := by unfold negBits; rw [if_pos (by omega)]
      rw [hneg]
      have hlt : a + 2 ^ 63 < 256 ^ 8 := by rw [pow256_8]; omega
      have hcons : natToBE 8 (a + 2 ^ 63) =
          (a + 2 ^ 63) / 256 ^ 7 :: natToBE 7 ((a + 2 ^ 63) % 256 ^ 7) := rfl
      have hheadge : 128 ≤ (a + 2 ^ 63) / 256 ^ 7 := by
        have h1 : (2 : Nat) ^ 63 / 2 ^ 56 ≤ (a + 2 ^ 63) / 2 ^ 56 :=
          Nat.div_le_div_right (by omega)
        norm_num at h1 ⊢
        exact h1
      rw [hcons]
      simp only [readByteSortableFloat]
      rw [if_neg (by omega), ← hcons, beToNat_natToBE 8 _ hlt]
      unfold negBits
      rw [if_neg (by omega)]
      omega
  · -- ordering
    rw [writeByteSortableFloat_eq a ha64, writeByteSortableFloat_eq b hb64,
      bytesLt_natToBE 8 _ _ (by rw [pow256_8]; exact sortableNat_lt a ha64)
        (by rw [pow256_8]; exact sortableNat_lt b hb64)]
    unfold sortableNat floatLt
    by_cases hsa : 2 ^ 63 ≤ a <;> by_cases hsb : 2 ^ 63 ≤ b <;>
      simp only [if_pos, if_neg, hsa, hsb, if_true, if_false] <;> simp [hsa, hsb] <;> omega

theorem c2_sortable_float_roundtrip_and_order_witness :
    IsFiniteDouble 0x3FF0000000000000 ∧ IsFiniteDouble 0x4000000000000000 ∧
    (readByteSortableFloat (writeByteSortableFloat 0x3FF0000000000000) = 0x3FF0000000000000 ∧
      (bytesLt (writeByteSortableFloat 0x3FF0000000000000)
          (writeByteSortableFloat 0x4000000000000000) = true ↔
        (floatLt 0x3FF0000000000000 0x4000000000000000 ∨
          (0x3FF0000000000000 = 2 ^ 63 ∧ 0x4000000000000000 = 0)))) :=
  ⟨by decide, by decide,
    c2_sortable_float_roundtrip_and_order 0x3FF0000000000000 0x4000000000000000
      (by decide) (by decide)⟩

/-! ## The ordered store

The embedded store (spec §4.2, LevelDB/levigo) is modelled as an association
list of `(key, value)` records kept strictly sorted by `bytesLt` on keys.
`DB.Get` is `storeGet`; a `levigo.WriteBatch` is a list of staged operations,
committed in order by `commitBatch` (`DB.Write`); an iterator `Seek` followed
by a walk is a `dropWhile`/`takeWhile` over the sorted record list. -/

abbrev Store := List (Bytes × Bytes)

/-- Keys strictly ascending: the well-formedness LevelDB guarantees. -/
def StoreWF (st : Store) : Prop := (st.map Prod.fst).Pairwise (fun a b => bytesLt a b = true)

instance (st : Store) : Decidable (StoreWF st) := by
  unfold StoreWF; infer_instance

/-- `DB.Get`: point lookup, `none` when the key is absent. -/
def storeGet : Store → Bytes → Option Bytes
  | [], _ => none
  | (k', v) :: rest, k => if k = k' then some v else storeGet rest k

/-- One staged write-batch operation. -/
inductive BatchOp
  | put (key value : Bytes)
  | del (key : Bytes)
deriving Repr, DecidableEq

/-- A `levigo.WriteBatch`: staged operations in staging order. -/
abbrev Batch := List BatchOp

/-- Insert a record, keeping keys sorted; an existing record is overwritten. -/
def storePut (st : Store) (k v : Bytes) : Store :=
  match st with
  | [] => [(k, v)]
  | (k', v') :: rest =>
    if bytesLt k k' then (k, v) :: (k', v') :: rest
    else if k = k' then (k, v) :: rest
    else (k', v') :: storePut rest k v

/-- Delete a record if present. -/
def storeDel (st : Store) (k : Bytes) : Store :=
  match st with
  | [] => []
  | (k', v') :: rest => if k = k' then rest else (k', v') :: storeDel rest k

/-- `DB.Write`: apply the staged operations in order, atomically. -/
def commitBatch (st : Store) (wb : Batch) : Store :=
  wb.foldl (fun s op => match op with
    | .put k v => storePut s k v
    | .del k => storeDel s k) st

/-- Iterator `Seek(k)` positions at the first record with key `≥ k`
(records before it are dropped). -/
def seekFrom (st : Store) (k : Bytes) : Store :=
  st.dropWhile (fun kv => bytesLt kv.1 k)

/-! ## Replies

`commands.go` documents the `interface{}` values an engine may return; we
model them as a sum.  `Reply.stream size items` is a `cmdReplyStream`: the
pre-announced element count plus the items actually sent on the channel
(which the RESP writer serializes after writing `*size`). -/

inductive Reply
  | simple (s : String)
  | err (s : String)
  | int (n : Int)
  | bulk (b : Bytes)
  | nilBulk
  | arr (items : List Reply)
  | stream (size : Int) (items : List Reply)

/-- `res.(error)` type test in the dispatcher. -/
def Reply.isError : Reply → Bool
  | .err _ => true
  | _ => false

def InvalidKeyTypeError : Reply :=
  .err "Operation against a key holding the wrong kind of value"
def InvalidDataError : Reply := .err "Invalid data"
def InvalidIntError : Reply := .err "value is not an integer or out of range"
def SyntaxError : Reply := .err "syntax error"

/-! ## The key codec

`commands.go` fixes the type-tag alphabet; `core/key_buffer.go` builds record
keys `tag ‖ len32(userKey) ‖ userKey ‖ suffix`.  A `KeyBuffer` after
`SetKey`+`SetSuffix` holds exactly `prefixKey t k ++ suffix`, so we embed the
buffer by the key bytes it produces. -/

def MetaKey : Nat := 0
def StringKey : Nat := 1
def HashKey : Nat := 2
def ListKey : Nat := 3
def SetKey : Nat := 4
def ZSetKey : Nat := 5
def ZScoreKey : Nat := 6
def StringLengthValue : Nat := 7
def HashLengthValue : Nat := 8
def ListLengthValue : Nat := 9
def SetCardValue : Nat := 10
def ZCardValue : Nat := 11

/-- The tag + 4-byte big-endian length + user key part of a record key
(`KeyBuffer.buf` before the suffix). -/
def prefixKey (t : Nat) (k : Bytes) : Bytes := t :: (natToBE 4 k.length ++ k)

/-- `KeyBuffer.Key()` after `SetSuffix s`. -/
def bufKey (t : Nat) (k : Bytes) (suffix : Bytes) : Bytes := prefixKey t k ++ suffix

/-- `KeyBuffer.IsPrefixOf` (`core/key_buffer.go`, non-reverse buffers): a
candidate is accepted only if it is *strictly longer* than the prefix and
starts with it.  (For reverse-iterator buffers the compared length is one
byte shorter; no claim here exercises that mode.) -/
def isPrefixOf (t : Nat) (userKey : Bytes) (k : Bytes) : Bool :=
  let p := prefixKey t userKey
  decide ((p : Bytes).length < k.length) && decide (k.take p.length = p)

/-- `metaKey` from `commands.go`: `MetaKey ‖ userKey`. -/
def metaKey (k : Bytes) : Bytes := MetaKey :: k

/-! ## The set engine (`set.go`) -/

/-- `scard` from `set.go`: read the metadata record; absent key has
cardinality 0; a non-`SetCardValue` tag is a type error; a short record is
corrupt.  (`DB.Get` IO errors cannot occur in the pure store model.) -/
def scard (st : Store) (key : Bytes) : Except Reply Nat :=
  match storeGet st key with
  | none => .ok 0
  | some res =>
    if res.length > 0 ∧ res.headD 0 ≠ SetCardValue then .error InvalidKeyTypeError
    else if res.length < 5 then .error InvalidDataError
    else .ok (beToNat ((res.drop 1).take 4))

/-- `setCard`: stage the metadata record `SetCardValue ‖ card32`. -/
def setCardOp (key : Bytes) (card : Nat) : BatchOp :=
  .put key (SetCardValue :: natToBE 4 card)

/-- The member loop of `Sadd`: existence is only probed when the
pre-command cardinality was positive, and only against the store —
never against the batch being built. -/
def saddLoop (st : Store) (key : Bytes) (card : Nat) :
    List Bytes → Batch → Nat → Batch × Nat
  | [], wb, n => (wb, n)
  | m :: ms, wb, n =>
    let ek := bufKey SetKey key m
    if card > 0 ∧ (storeGet st ek).isSome then saddLoop st key card ms wb n
    else saddLoop st key card ms (wb ++ [.put ek []]) (n + 1)

/-- `Sadd` from `set.go`: returns the reply and the staged batch. -/
def SaddM (args : List Bytes) (st : Store) : Reply × Batch :=
  match args with
  | [] => (InvalidDataError, [])   -- unreachable: dispatch guarantees ≥ 2 args
  | key :: members =>
    let mk := metaKey key
    match scard st mk with
    | .error e => (e, [])
    | .ok card =>
      let (wb, newMembers) := saddLoop st key card members [] 0
      if newMembers > 0 then (.int newMembers, wb ++ [setCardOp mk (card + newMembers)])
      else (.int newMembers, wb)

/-- `Sismember` from `set.go`: a point get on the element record. -/
def SismemberM (args : List Bytes) (st : Store) : Reply :=
  match storeGet st (bufKey SetKey (args.headD []) (args.getD 1 [])) with
  | none => .int 0
  | some _ => .int 1

/-- `parseMemberFromSetKey` from `set.go`. -/
def parseMemberFromSetKey (key : Bytes) : Bytes :=
  key.drop (5 + beToNat ((key.drop 1).take 4))

/-- The record walk shared by `Smembers` and `DelSet`: seek to the set's
prefix and take records while `IsPrefixOf` accepts them. -/
def setScan (st : Store) (key : Bytes) : Store :=
  (seekFrom st (prefixKey SetKey key)).takeWhile (fun kv => isPrefixOf SetKey key kv.1)

/-- `Smembers` from `set.go`.  The second component records whether the
snapshot acquired at entry was released on the taken exit path: in the Go
source both early exits (`scard` error, zero cardinality) place
`DB.ReleaseSnapshot`/`opts.Close()` *after* the `return`, so those paths
leak (`false`); the streaming goroutine path releases (`true`). -/
def SmembersM (args : List Bytes) (st : Store) : Reply × Bool :=
  let key := args.headD []
  match scard st (metaKey key) with
  | .error e => (e, false)
  | .ok card =>
    if card = 0 then (.arr [], false)
    else (.stream card ((setScan st key).map (fun kv => .bulk (parseMemberFromSetKey kv.1))),
      true)

/-- `DelSet` from `set.go`: stage a delete for every record the prefix scan
yields. -/
def DelSetM (key : Bytes) (st : Store) : Batch :=
  (setScan st key).map (fun kv => .del kv.1)

/-- C10: for any user key `K`, `SADD K ""` on an empty store creates the
element record whose key is exactly the `SetKey` prefix, reports one new
member and a cardinality of 1, and `SISMEMBER` finds it by point get; but
`IsPrefixOf` only accepts keys strictly longer than the prefix, so no prefix
scan ever yields the record: `SMEMBERS` announces 1 item and streams 0, and
`DelSet`'s enumeration stages no delete for it. -/
theorem c10_empty_member_invisible_to_scans (K : Bytes) :
    (SaddM [K, []] []).1 = Reply.int 1 ∧
    storeGet (commitBatch [] (SaddM [K, []] []).2) (prefixKey SetKey K) = some [] ∧
    SismemberM [K, []] (commitBatch [] (SaddM [K, []] []).2) = Reply.int 1 ∧
    SmembersM [K] (commitBatch [] (SaddM [K, []] []).2) = (Reply.stream 1 [], true) ∧
    DelSetM K (commitBatch [] (SaddM [K, []] []).2) = [] ∧
    (∀ c : Bytes, isPrefixOf SetKey K c = true → (prefixKey SetKey K).length < c.length) := by
  have hne : prefixKey SetKey K ≠ metaKey K := by
    simp [prefixKey, metaKey, MetaKey, SetKey]
  have hsadd : SaddM [K, []] [] =
      (.int 1, [.put (prefixKey SetKey K) [], setCardOp (metaKey K) 1]) := by
    simp [SaddM, scard, storeGet, saddLoop, bufKey, setCardOp]
  have hlt : bytesLt (metaKey K) (prefixKey SetKey K) = true := by
    simp [metaKey, prefixKey, MetaKey, SetKey, bytesLt]
  have hst : commitBatch [] (SaddM [K, []] []).2 =
      [(metaKey K, SetCardValue :: natToBE 4 1), (prefixKey SetKey K, [])] := by
    rw [hsadd]
    simp [commitBatch, storePut, setCardOp, hlt, bytesLt_irrefl]
  have hscanNil : setScan (commitBatch [] (SaddM [K, []] []).2) K = [] := by
    rw [hst]
    simp [setScan, seekFrom, hlt, bytesLt_irrefl, isPrefixOf]
  refine ⟨by rw [hsadd], ?_, ?_, ?_, ?_, ?_⟩
  · rw [hst]
    simp [storeGet, hne]
  · rw [SismemberM, hst]
    simp only [List.headD, List.getD, List.get?]
    simp [storeGet, bufKey, hne]
  · rw [SmembersM, hst]
    have : scard [(metaKey K, SetCardValue :: natToBE 4 1), (prefixKey SetKey K, [])]
        (metaKey K) = .ok 1 := by
      simp [scard, storeGet, SetCardValue, natToBE, beToNat]
    simp only [List.headD]
    rw [this]
    have h1 : (1 : Nat) ≠ 0 := one_ne_zero
    simp only [if_neg h1]
    rw [← hst, hscanNil]
    rfl
  · rw [DelSetM, hscanNil]
    rfl
  · intro c hc
    have := (Bool.and_eq_true _ _).mp hc
    exact of_decide_eq_true this.1

/-! ## Integer argument parsing

`strconv.Atoi` / `strconv.ParseInt(s, 10, 64)`: optional sign, at least one
decimal digit, 64-bit range check. -/

def parseDigitsAux : Bytes → Nat → Option Nat
  | [], acc => some acc
  | c :: rest, acc =>
    if 48 ≤ c ∧ c ≤ 57 then parseDigitsAux rest (acc * 10 + (c - 48)) else none

def parseDigits : Bytes → Option Nat
  | [] => none
  | l => parseDigitsAux l 0

def parseIntB (b : Bytes) : Option Int :=
  let signed : Option Int :=
    match b with
    | 45 :: rest => (parseDigits rest).map (fun n => -(n : Int))   -- '-'
    | 43 :: rest => (parseDigits rest).map (fun n => (n : Int))    -- '+'
    | _ => (parseDigits b).map (fun n => (n : Int))
  match signed with
  | some v => if -(2 ^ 63) ≤ v ∧ v < 2 ^ 63 then some v else none
  | none => none

/-! ## The command table and dispatcher (`commands.go`, `protocol.go`)

A `cmdDesc` row declares name, arity, the writes flag and the key-extraction
rule.  The Go struct also carries the engine function pointer; engines are
embedded separately and handed to `runCommandModel` where dispatch needs
one, so the table itself stays first-order data. -/

structure CmdDesc where
  name : String
  arity : Int
  writes : Bool
  firstKey : Int
  lastKey : Int
  keyStep : Int
  keyLookup : Option (List Bytes → List Bytes) := none

/-- `ZunionInterKeys` from `zset.go`: destination key plus the `numkeys`
input keys, deduplicated in argument order; nothing when `numkeys` does not
parse or fewer arguments follow than announced. -/
def ZunionInterKeysM (args : List Bytes) : List Bytes :=
  match parseIntB (args.getD 1 []) with
  | none => []
  | some nk =>
    if (args.length : Int) < 2 + nk then []
    else
      ((args.drop 2).take nk.toNat).foldl
        (fun keys k => if k ∈ keys then keys else keys ++ [k]) [args.headD []]

/-- The dedup loop of `getKeys` for `keyStep ≥ 2` (fuel-bounded; the fuel
`args.length + 1` suffices for any positive step, and no table row reaches
this path with step 0). -/
def stepKeysAux (args : List Bytes) (lastKey : Int) (step : Nat) :
    Nat → Nat → List Bytes → List Bytes
  | 0, _, acc => acc
  | fuel + 1, i, acc =>
    if i < args.length ∧ (lastKey = -1 ∨ (i : Int) ≤ lastKey) then
      let k := args.getD i []
      stepKeysAux args lastKey step fuel (i + step)
        (if k ∈ acc then acc else acc ++ [k])
    else acc

/-- Go slice `l[a : b]` (elements `a ≤ i < b`; callers keep `b ≤ len`). -/
def goSlice (l : List Bytes) (a : Nat) (b : Int) : List Bytes :=
  (l.take b.toNat).drop a

/-- `cmdDesc.getKeys` from `commands.go`: a key-lookup function wins; with
none, no keys when `firstKey` is negative or out of range; for
`keyStep ≤ 1` the *slice* `args[firstKey : lastKey+1]` — no deduplication,
and empty whenever `lastKey = -1` (e.g. DEL, SUNIONSTORE); otherwise the
stepping dedup loop. -/
def getKeysM (c : CmdDesc) (args : List Bytes) : List Bytes :=
  match c.keyLookup with
  | some f => f args
  | none =>
    if c.firstKey < 0 ∨ (args.length : Int) ≤ c.firstKey then []
    else if c.keyStep ≤ 1 then goSlice args c.firstKey.toNat (c.lastKey + 1)
    else stepKeysAux args c.lastKey c.keyStep.toNat (args.length + 1) c.firstKey.toNat []

/-- `cmdDesc.lockKeys`: the sequence of keys passed to `KeyMutex.Lock`, in
call order (nothing for read-only commands). -/
def lockSeqM (c : CmdDesc) (args : List Bytes) : List Bytes :=
  if c.writes then getKeysM c args else []

/-- `cmdDesc.unlockKeys`: the sequence passed to `KeyMutex.Unlock`, in call
order — the same iteration as `lockKeys`, not reversed. -/
def unlockSeqM (c : CmdDesc) (args : List Bytes) : List Bytes :=
  if c.writes then getKeysM c args else []

/-- `commandList` from `commands.go` (name, arity, writes, firstKey,
lastKey, keyStep, keyLookup). -/
def commandListModel : List CmdDesc := [
  ⟨"del", -1, true, 0, -1, 1, none⟩,
  ⟨"echo", 1, false, -1, 0, 0, none⟩,
  ⟨"exists", 1, false, 0, 0, 0, none⟩,
  ⟨"get", 1, false, 0, 0, 0, none⟩,
  ⟨"hdel", -2, true, 0, 0, 0, none⟩,
  ⟨"hexists", 2, false, 0, 0, 0, none⟩,
  ⟨"hget", 2, false, 0, 0, 0, none⟩,
  ⟨"hgetall", 1, false, 0, 0, 0, none⟩,
  ⟨"hincrby", 3, true, 0, 0, 0, none⟩,
  ⟨"hincrbyfloat", 3, true, 0, 0, 0, none⟩,
  ⟨"hkeys", 1, false, 0, 0, 0, none⟩,
  ⟨"hlen", 1, false, 0, 0, 0, none⟩,
  ⟨"hmget", -2, false, 0, 0, 0, none⟩,
  ⟨"hmset", -3, true, 0, 0, 0, none⟩,
  ⟨"hset", 3, true, 0, 0, 0, none⟩,
  ⟨"hsetnx", 3, true, 0, 0, 0, none⟩,
  ⟨"hvals", 1, false, 0, 0, 0, none⟩,
  ⟨"keys", 1, false, -1, 0, 0, none⟩,
  ⟨"llen", 1, false, 0, 0, 0, none⟩,
  ⟨"lpush", 2, true, 0, 0, 0, none⟩,
  ⟨"lpushx", 2, true, 0, 0, 0, none⟩,
  ⟨"rpush", 2, true, 0, 0, 0, none⟩,
  ⟨"rpushx", 2, true, 0, 0, 0, none⟩,
  ⟨"lpop", 1, true, 0, 0, 0, none⟩,
  ⟨"rpop", 1, true, 0, 0, 0, none⟩,
  ⟨"rpoplpush", 2, true, 0, 1, 0, none⟩,
  ⟨"lrange", 3, false, 0, 0, 0, none⟩,
  ⟨"ping", 0, false, -1, 0, 0, none⟩,
  ⟨"set", 2, true, 0, 0, 0, none⟩,
  ⟨"sadd", -2, true, 0, 0, 0, none⟩,
  ⟨"scard", 1, false, 0, 0, 0, none⟩,
  ⟨"sismember", 2, false, 0, 0, 0, none⟩,
  ⟨"smembers", 1, false, 0, 0, 0, none⟩,
  ⟨"smove", 3, true, 0, 1, 0, none⟩,
  ⟨"spop", 1, true, 0, 0, 0, none⟩,
  ⟨"srem", -2, true, 0, 0, 0, none⟩,
  ⟨"sunion", -1, false, 0, -1, 1, none⟩,
  ⟨"sunionstore", -2, true, 0, -1, 1, none⟩,
  ⟨"sinter", -1, false, 0, -1, 1, none⟩,
  ⟨"sinterstore", -2, true, 0, -1, 1, none⟩,
  ⟨"sdiff", -1, false, 0, -1, 1, none⟩,
  ⟨"sdiffstore", -2, true, 0, -1, 1, none⟩,
  ⟨"time", 0, false, -1, 0, 0, none⟩,
  ⟨"type", 1, false, 0, 0, 0, none⟩,
  ⟨"zadd", -3, true, 0, 0, 0, none⟩,
  ⟨"zcard", 1, false, 0, 0, 0, none⟩,
  ⟨"zincrby", 3, true, 0, 0, 0, none⟩,
  ⟨"zrange", -3, false, 0, 0, 0, none⟩,
  ⟨"zrem", -2, true, 0, 0, 0, none⟩,
  ⟨"zrevrange", -3, false, 0, 0, 0, none⟩,
  ⟨"zscore", 2, false, 0, 0, 0, none⟩,
  ⟨"zunionstore", -3, true, 0, 0, 0, some ZunionInterKeysM⟩,
  ⟨"zinterstore", -3, true, 0, 0, 0, some ZunionInterKeysM⟩]

/-- The arity check of `runCommand` (`protocol.go`): negative arity `-n`
errors when fewer than `n` arguments are given; non-negative arity `n`
errors when *more* than `n` are given. -/
def arityErr (arity : Int) (argc : Nat) : Bool :=
  (decide (arity < 0) && decide ((argc : Int) < -arity)) ||
    (decide (0 ≤ arity) && decide ((argc : Int) > arity))

/-- `runCommand` from `protocol.go` after command lookup: enforce arity,
run the engine against the store with a fresh write-batch, and commit the
batch only when the command writes and the reply is not an error.  `args`
is the argument vector after the command name (Go's `args[1:]`). -/
def runCommandModel (c : CmdDesc) (f : List Bytes → Store → Reply × Batch)
    (args : List Bytes) (st : Store) : Reply × Store :=
  if arityErr c.arity args.length then
    (.err ("wrong number of arguments for '" ++ c.name ++ "' command"), st)
  else
    let (res, wb) := f args st
    if c.writes ∧ res.isError = false then (res, commitBatch st wb)
    else (res, st)

/-- C8 (counterexample): the table declares GET with positive arity 1, yet
invoking it with 0 arguments is *not* rejected by the dispatcher's arity
check (`arityErr 1 0 = false`), although 0 differs from the declared exact
argument count — refuting "errors if and only if the argument count differs
from n". -/
theorem c8_counterexample_get_zero_args :
    ((commandListModel.find? (fun c => c.name == "get")).map (fun c => c.arity)) = some 1 ∧
    arityErr 1 0 = false ∧ (0 : Nat) ≠ 1 :=
  ⟨rfl, rfl, by decide⟩

/-- C8 (amended): the dispatcher's arity check errors for non-negative
declared arity `n` iff *more* than `n` arguments are given (too few pass
through to the engine), and for negative arity `-n` iff fewer than `n` are
given. -/
theorem c8_arity_check_upper_only (arity : Int) (argc : Nat) :
    arityErr arity argc = true ↔
      ((0 ≤ arity ∧ arity < (argc : Int)) ∨ (arity < 0 ∧ (argc : Int) < -arity)) := by
  unfold arityErr
  simp only [Bool.or_eq_true, Bool.and_eq_true, decide_eq_true_eq]
  omega

/-- C3 (counterexample): `SMOVE b a m` (a writing command mutating keys `b`
and `a`) makes the dispatcher lock `[b, a]` — the argument order, not the
byte-lexicographically sorted `[a, b]` — and unlock `[b, a]` as well, which
is not the reverse of the lock sequence. -/
theorem c3_counterexample_smove_lock_order :
    ((commandListModel.find? (fun c => c.name == "smove")).map
        (fun c => (lockSeqM c [[98], [97], [109]], unlockSeqM c [[98], [97], [109]])))
      = some ([[98], [97]], [[98], [97]]) ∧
    ([[98], [97]] : List Bytes) ≠ [[97], [98]] ∧
    ([[98], [97]] : List Bytes).reverse = [[97], [98]] :=
  ⟨rfl, by decide, rfl⟩

/-- C3 (amended): the dispatcher locks exactly `getKeys(args)` in its own
order and unlocks in the *same* order (never reversed, never sorted);
`getKeys` deduplicates only in the `keyStep > 1` loop and in the
ZUNIONSTORE/ZINTERSTORE `numkeys` lookup, and for `keyStep ≤ 1` rows with
`lastKey = -1` (DEL, SUNIONSTORE, SINTERSTORE, SDIFFSTORE) the slice
`args[firstKey : lastKey+1]` is empty, so those writing commands lock no
key at all. -/
theorem c3_lock_sequences_argument_order :
    (∀ (c : CmdDesc) (args : List Bytes), unlockSeqM c args = lockSeqM c args) ∧
    (∀ (c : CmdDesc) (args : List Bytes), c.writes = true →
      lockSeqM c args = getKeysM c args) ∧
    ((commandListModel.find? (fun c => c.name == "del")).map
      (fun c => lockSeqM c [[97], [98]]) = some []) ∧
    ((commandListModel.find? (fun c => c.name == "sunionstore")).map
      (fun c => lockSeqM c [[100], [97], [98]]) = some []) ∧
    ((commandListModel.find? (fun c => c.name == "rpoplpush")).map
      (fun c => lockSeqM c [[98], [97]]) = some [[98], [97]]) ∧
    ((commandListModel.find? (fun c => c.name == "zunionstore")).map
      (fun c => lockSeqM c [[100], [50], [98], [98]]) = some [[100], [98]]) := by
  refine ⟨fun c args => rfl, fun c args h => by simp [lockSeqM, h], rfl, rfl, rfl, rfl⟩

/-- C4: for every command descriptor, engine function, argument vector and
starting store, if the engine returns an error reply then the dispatcher
does not commit the write-batch: the store after `runCommand` is exactly the
starting store, whatever operations the engine staged. -/
theorem c4_error_reply_discards_batch (c : CmdDesc)
    (f : List Bytes → Store → Reply × Batch) (args : List Bytes) (st : Store)
    (h : (f args st).1.isError = true) :
    (runCommandModel c f args st).2 = st := by
  rcases hfw : f args st with ⟨res, wb⟩
  rw [hfw] at h
  simp only at h
  unfold runCommandModel
  rw [hfw]
  by_cases ha : arityErr c.arity args.length
  · simp [ha]
  · simp [ha, h]

/-! ## The sorted-set engine (`zset.go`)

Scores are IEEE-754 bit patterns (`Nat`).  `strconv.ParseFloat` is passed in
as a partial map `pf : Bytes → Option Nat` (string → bit pattern) and
instantiated with a concrete table where a theorem needs it; Go's float `+`
(used only by ZINCRBY) is likewise a parameter. -/

/-- `zcard` from `zset.go`: like `scard` but expecting the `ZCardValue` tag. -/
def zcard (st : Store) (key : Bytes) : Except Reply Nat :=
  match storeGet st key with
  | none => .ok 0
  | some res =>
    if res.length > 0 ∧ res.headD 0 ≠ ZCardValue then .error InvalidKeyTypeError
    else if res.length < 5 then .error InvalidDataError
    else .ok (beToNat ((res.drop 1).take 4))

/-- `setZcard`: stage the metadata record `ZCardValue ‖ card32`. -/
def setZcardOp (key : Bytes) (card : Nat) : BatchOp :=
  .put key (ZCardValue :: natToBE 4 card)

/-- The score-key layout `ZScoreKey ‖ len32(K) ‖ K ‖ sortableScore64 ‖ member`
(a `KeyBuffer` after `setZScoreKeyMember` + `setZScoreKeyScore`). -/
def zscoreKeyB (key : Bytes) (scoreBits : Nat) (member : Bytes) : Bytes :=
  prefixKey ZScoreKey key ++ (writeByteSortableFloat scoreBits ++ member)

/-- Go float `==` on bit patterns: identical bits, or both are zeros
(`-0.0 == +0.0`).  (NaN ≠ NaN is not modelled; no claim parses a NaN
score.) -/
def floatEqBits (a b : Nat) : Bool :=
  decide (a = b) || (decide (a % 2 ^ 63 = 0) && decide (b % 2 ^ 63 = 0))

/-- The score/member loop of `zadd` (`zset.go`).  `card` is the cardinality
read once before the loop; membership is probed only when it was positive,
and only against the store, never against the batch being built.  Returns
the error encountered (if any), the staged batch so far, the count of new
members, and the last `score` value (returned by ZINCRBY). -/
def zaddLoop (pf : Bytes → Option Nat) (fadd : Nat → Nat → Nat) (st : Store)
    (key : Bytes) (card : Nat) (incr : Bool) :
    List (Bytes × Bytes) → Batch → Nat → Nat → Option Reply × Batch × Nat × Nat
  | [], wb, n, score => (none, wb, n, score)
  | (sb, m) :: rest, wb, n, score =>
    match pf sb with
    | none => (some (.err "not a valid float"), wb, n, score)
    | some parsed =>
      let res := if card > 0 then storeGet st (bufKey ZSetKey key m) else none
      match res with
      | some v =>
        if v.length ≠ 8 then (some InvalidDataError, wb, n, score)
        else
          let actual := beToNat v
          let score' := if incr then fadd parsed actual else parsed
          if floatEqBits score' actual then
            zaddLoop pf fadd st key card incr rest wb n score'
          else
            zaddLoop pf fadd st key card incr rest
              (wb ++ [.del (zscoreKeyB key actual m),
                .put (bufKey ZSetKey key m) (natToBE 8 score'),
                .put (zscoreKeyB key score' m) []]) n score'
      | none =>
        zaddLoop pf fadd st key card incr rest
          (wb ++ [.put (bufKey ZSetKey key m) (natToBE 8 parsed),
            .put (zscoreKeyB key parsed m) []]) (n + 1) parsed

/-- The score/member pairs `args[1], args[2]; args[3], args[4]; …`. -/
def zaddPairs : List Bytes → List (Bytes × Bytes)
  | s :: m :: rest => (s, m) :: zaddPairs rest
  | _ => []

/-- `zadd` from `zset.go` (shared by ZADD and ZINCRBY): read the cardinality
once, run the member loop, and stage the new cardinality only when new
members were counted.  `ftoaF` renders the score for the ZINCRBY reply. -/
def zaddCore (pf : Bytes → Option Nat) (fadd : Nat → Nat → Nat)
    (ftoaF : Nat → Bytes) (incr : Bool) (args : List Bytes) (st : Store) :
    Reply × Batch :=
  match args with
  | [] => (InvalidDataError, [])   -- unreachable: dispatch guarantees ≥ 3 args
  | key :: rest =>
    let mk := metaKey key
    match zcard st mk with
    | .error e => (e, [])
    | .ok card =>
      match zaddLoop pf fadd st key card incr (zaddPairs rest) [] 0 0 with
      | (some e, wb, _, _) => (e, wb)
      | (none, wb, newMembers, score) =>
        let wb := if newMembers > 0 then wb ++ [setZcardOp mk (card + newMembers)] else wb
        if incr then (.bulk (ftoaF score), wb) else (.int newMembers, wb)

/-- `Zadd`: rejects an uneven score/member argument list, then runs `zadd`
with `incr = false` (so the float-add and float-format parameters are
unreachable and instantiated trivially). -/
def ZaddCmd (pf : Bytes → Option Nat) (args : List Bytes) (st : Store) :
    Reply × Batch :=
  if (args.length - 1) % 2 ≠ 0 then
    (.err "wrong number of arguments for 'zadd' command", [])
  else zaddCore pf (fun a _ => a) (fun _ => []) false args st

/-- The float-parse table the concrete runs need: `"1" ↦ 1.0`, `"2" ↦ 2.0`
as IEEE-754 bit patterns. -/
def pfTable : Bytes → Option Nat := fun s =>
  if s = [49] then some 0x3FF0000000000000
  else if s = [50] then some 0x4000000000000000
  else none

/-- Witness for C4: `ZADD k 1 a x b` stages the records for member `a`,
then fails parsing the score `x` and returns an error; although the batch
is non-empty, dispatch discards it and the (empty) store stays empty. -/
theorem c4_error_reply_discards_batch_witness :
    (ZaddCmd pfTable [[107], [49], [97], [120], [98]] []).1.isError = true ∧
    (ZaddCmd pfTable [[107], [49], [97], [120], [98]] []).2 ≠ [] ∧
    (runCommandModel ⟨"zadd", -3, true, 0, 0, 0, none⟩ (ZaddCmd pfTable)
      [[107], [49], [97], [120], [98]] []).2 = [] :=
  ⟨by decide, by decide, c4_error_reply_discards_batch _ _ _ _ (by decide)⟩

/-- Records under `K` with the `ZSetKey` prefix (the spec-side count for
invariant 3 of §8). -/
def zsetRecordCount (st : Store) (k : Bytes) : Nat :=
  (st.filter (fun kv => (prefixKey ZSetKey k).isPrefixOf kv.1)).length

/-- `ZScoreKey` records for the pair `(K, M)`: score-prefixed keys under `K`
whose member part (after the 8 score bytes) is `M` (the spec-side count for
invariant 2 of §8). -/
def zscoreRecordCountFor (st : Store) (k m : Bytes) : Nat :=
  (st.filter (fun kv =>
    decide (kv.1.take (prefixKey ZScoreKey k).length = prefixKey ZScoreKey k) &&
    decide (kv.1.drop ((prefixKey ZScoreKey k).length + 8) = m) &&
    decide (kv.1.length = (prefixKey ZScoreKey k).length + 8 + m.length))).length

/-- C1: `ZADD k 1 m 2 m` on a previously empty key commits a store whose
metadata says cardinality 2 while only one `ZSetKey` record exists under
`k`, and two `ZScoreKey` records exist for `(k, m)` (with different encoded
scores).  The cardinality is read once before the loop and the member-
existence probe is skipped while it is 0 (and never consults the batch), so
a repeated member is counted as two new members and its stale score key is
never deleted — violating the claimed invariant. -/
theorem c1_zadd_dup_member_breaks_invariant :
    (ZaddCmd pfTable [[107], [49], [109], [50], [109]] []).1 = Reply.int 2 ∧
    (zcard (commitBatch [] (ZaddCmd pfTable [[107], [49], [109], [50], [109]] []).2)
      (metaKey [107])).toOption = some 2 ∧
    zsetRecordCount
      (commitBatch [] (ZaddCmd pfTable [[107], [49], [109], [50], [109]] []).2)
      [107] = 1 ∧
    zscoreRecordCountFor
      (commitBatch [] (ZaddCmd pfTable [[107], [49], [109], [50], [109]] []).2)
      [107] [109] = 2 := by
  refine ⟨rfl, by decide, by decide, by decide⟩

/-! ## Index ranges and `zrange` (`commands.go`, `zset.go`) -/

/-- `parseRange` from `commands.go`: parse both indices, resolve negatives
by adding the length, and clamp the end — but only when it exceeds the
length (`end > length`), so `end = length` survives unclamped.  `none` is
the `InvalidIntError` return. -/
def parseRangeM (a0 a1 : Bytes) (length : Int) : Option (Int × Int) :=
  match parseIntB a0, parseIntB a1 with
  | some s, some e =>
    let s := if s < 0 then s + length else s
    let e := if e < 0 then e + length else e
    let e := if e > length then length - 1 else e
    some (s, e)
  | _, _ => none

/-- `bytes.ToLower` for ASCII. -/
def toLowerBytes (b : Bytes) : Bytes :=
  b.map (fun c => if 65 ≤ c ∧ c ≤ 90 then c + 32 else c)

/-- "withscores" as bytes. -/
def withscoresBytes : Bytes := [119, 105, 116, 104, 115, 99, 111, 114, 101, 115]

/-- `parseZScoreKey` from `zset.go`: score at offset `keyLen + 5` (8 bytes),
member at offset `keyLen + 13`. -/
def parseZScoreKeyM (b : Bytes) (keyLen : Nat) : Nat × Bytes :=
  (readByteSortableFloat ((b.drop (keyLen + 5)).take 8), b.drop (keyLen + 13))

/-- The iteration of `zrange` (forward direction): seek to the `ZScoreKey`
prefix and loop while the iterator is valid and `i ≤ end`, emitting rows
with `i ≥ start`.  The loop has *no* prefix check: it stops only on `i`
passing `end` or the store running out. -/
def zrangeRows (st : Store) (key : Bytes) (start e : Int) : List (Nat × Bytes) :=
  (((seekFrom st (prefixKey ZScoreKey key)).take (e + 1).toNat).enum.filter
    (fun iv => start ≤ (iv.1 : Int))).map
    (fun iv => parseZScoreKeyM iv.2.1 key.length)

/-- `zrange` from `zset.go` (forward / ZRANGE path; ZREVRANGE shares the
code).  The second component records whether the snapshot acquired at entry
is released on the taken exit path: every early exit releases it *except*
the `parseRange` error return, which lacks the release (the claims are
settled on this forward path).  `ftoaF` renders scores for WITHSCORES. -/
def ZrangeM (ftoaF : Nat → Bytes) (args : List Bytes) (st : Store) :
    Reply × Bool :=
  let key := args.headD []
  match zcard st (metaKey key) with
  | .error e => (e, true)
  | .ok count =>
    if count = 0 then (.arr [], true)
    else
      match parseRangeM (args.getD 1 []) (args.getD 2 []) count with
      | none => (InvalidIntError, false)
      | some (start, e) =>
        if start > e then (.arr [], true)
        else
          let wsCheck : Option Bool :=
            if 4 ≤ args.length then
              if toLowerBytes (args.getD 3 []) ≠ withscoresBytes ∨ 4 < args.length
              then none else some true
            else some false
          match wsCheck with
          | none => (SyntaxError, true)
          | some withscores =>
            let items := if withscores then 2 * (e + 1 - start) else e + 1 - start
            (.stream items
              ((zrangeRows st key start e).flatMap (fun sm =>
                Reply.bulk sm.2 ::
                  (if withscores then [Reply.bulk (ftoaF sm.1)] else []))), true)

/-- C6: with cardinality 1 (after `ZADD k 1 m`), `parseRange ["0","1"]`
leaves `end = 1` unclamped (the code clamps only `end > card`, not
`end = card`), so `ZRANGE k 0 1` announces 2 reply items while streaming
only the 1 existing member — a different reply from `ZRANGE k 0 0`, which
announces 1 and streams 1.  This contradicts "end is clamped to card-1"
and the claimed equality of the two replies. -/
theorem c6_end_equal_card_not_clamped :
    parseRangeM [48] [49] 1 = some (0, 1) ∧
    (ZrangeM (fun _ => [])
      [[107], [48], [49]]
      (commitBatch [] (ZaddCmd pfTable [[107], [49], [109]] []).2)).1
      = Reply.stream 2 [Reply.bulk [109]] ∧
    (ZrangeM (fun _ => [])
      [[107], [48], [48]]
      (commitBatch [] (ZaddCmd pfTable [[107], [49], [109]] []).2)).1
      = Reply.stream 1 [Reply.bulk [109]] := by
  refine ⟨rfl, rfl, rfl⟩

/-! ## The hash engine's streaming read (`network.go`: `hgetall`) -/

/-- `hlen`: like `scard` but expecting the `HashLengthValue` tag. -/
def hlen (st : Store) (key : Bytes) : Except Reply Nat :=
  match storeGet st key with
  | none => .ok 0
  | some res =>
    if res.length > 0 ∧ res.headD 0 ≠ HashLengthValue then .error InvalidKeyTypeError
    else if res.length < 5 then .error InvalidDataError
    else .ok (beToNat ((res.drop 1).take 4))

/-- `hgetall` from `network.go` (shared by HGETALL/HKEYS/HVALS).  Second
component: whether the snapshot is released on the taken exit path — in the
source both early exits place the release *after* `return`, so they leak;
the streaming goroutine path releases. -/
def hgetallM (key : Bytes) (fields values : Bool) (st : Store) : Reply × Bool :=
  match hlen st (metaKey key) with
  | .error e => (e, false)
  | .ok length =>
    if length = 0 then (.arr [], false)
    else
      let length := if fields ∧ values then 2 * length else length
      let recs := (seekFrom st (prefixKey HashKey key)).takeWhile
        (fun kv => isPrefixOf HashKey key kv.1)
      (.stream length
        (recs.flatMap (fun kv =>
          (if fields then [Reply.bulk (kv.1.drop (prefixKey HashKey key).length)] else []) ++
          (if values then [Reply.bulk kv.2] else []))), true)

/-- C9: the snapshot-releasing claims fail on the early exits.  `SMEMBERS`
on a missing key (zero-cardinality exit) and on a wrong-typed key (metadata
error exit) leak the snapshot — the release statements sit after `return`
and never run; `HGETALL`'s two early exits leak the same way; `ZRANGE`
leaks on the range-parse error exit (no release before that `return`),
while its other exits release.  The streaming paths do release. -/
theorem c9_snapshot_leaked_on_early_exits :
    (SmembersM [[113]] []).2 = false ∧
    (SmembersM [[113]] [([0, 113], [7])]).2 = false ∧
    (hgetallM [113] true true []).2 = false ∧
    (ZrangeM (fun _ => []) [[107], [120], [49]]
      (commitBatch [] (ZaddCmd pfTable [[107], [49], [109]] []).2)).2 = false ∧
    (ZrangeM (fun _ => []) [[107], [48], [48]]
      (commitBatch [] (ZaddCmd pfTable [[107], [49], [109]] []).2)).2 = true := by
  refine ⟨rfl, rfl, rfl, by decide, by decide⟩

/-! ## ZUNIONSTORE/ZINTERSTORE options and per-member scoring
(`zset.go`: `combineZset`)

As with `zadd`, float arithmetic enters only through parameters: `fmul` is
Go's float `*`, `fadd` its `+`, and `fle` the order `sort.Float64s` sorts
by.  The claims here concern which weight multiplies which score and which
aggregate is chosen, which is independent of the scalar interpretation. -/

inductive ZAgg
  | sum
  | min
  | max
deriving DecidableEq, Repr

/-- Bits of `1.0`, the default weight `combineZset` fills in. -/
def oneBits : Nat := 0x3FF0000000000000

def weightsBytes : Bytes := [119, 101, 105, 103, 104, 116, 115]
def aggregateBytes : Bytes := [97, 103, 103, 114, 101, 103, 97, 116, 101]
def sumBytes : Bytes := [115, 117, 109]
def minBytes : Bytes := [109, 105, 110]
def maxBytes : Bytes := [109, 97, 120]

def mapOptionList (f : Bytes → Option Nat) : List Bytes → Option (List Nat)
  | [] => some []
  | x :: xs =>
    match f x, mapOptionList f xs with
    | some v, some vs => some (v :: vs)
    | _, _ => none

/-- Go's in-place `weights[i] = …` over a parsed slice. -/
def overwriteList (base ws : List Nat) : List Nat := ws ++ base.drop ws.length

/-- The argument parsing of `combineZset` (`zset.go` lines 224–268): read
`numkeys`, default every weight to `1.0` and the aggregate to SUM, then the
optional `WEIGHTS w1..wN` clause (exactly `numkeys` weights, each a float)
followed by the optional `AGGREGATE SUM|MIN|MAX` clause; anything else is a
syntax error.  Returns `(numkeys, aggregate, weights)`. -/
def parseZCombineOpts (pf : Bytes → Option Nat) (args : List Bytes) :
    Except Reply (Int × ZAgg × List Nat) :=
  match parseIntB (args.getD 1 []) with
  | none => .error InvalidIntError
  | some nk =>
    let w0 : List Nat := List.replicate nk.toNat oneBits
    let argOffset : Int := 2 + nk
    let stage1 : Except Reply (Int × List Nat) :=
      if (args.length : Int) > argOffset then
        if (args.length : Int) > argOffset + nk then
          if toLowerBytes (args.getD argOffset.toNat []) = weightsBytes then
            match mapOptionList pf (goSlice args (nk + 3).toNat (argOffset + nk + 1)) with
            | some ws => .ok (argOffset + nk + 1, overwriteList w0 ws)
            | none => .error (.err "weight value is not a float")
          else .error SyntaxError
        else .ok (argOffset, w0)
      else .ok (argOffset, w0)
    match stage1 with
    | .error e => .error e
    | .ok (off, ws) =>
      if (args.length : Int) > off then
        if (args.length : Int) = off + 2 ∧
            toLowerBytes (args.getD off.toNat []) = aggregateBytes then
          let agg := toLowerBytes (args.getD (off + 1).toNat [])
          if agg = sumBytes then .ok (nk, .sum, ws)
          else if agg = minBytes then .ok (nk, .min, ws)
          else if agg = maxBytes then .ok (nk, .max, ws)
          else .error SyntaxError
        else .error SyntaxError
      else .ok (nk, .sum, ws)

def insertLe (le : Nat → Nat → Bool) (x : Nat) : List Nat → List Nat
  | [] => [x]
  | y :: ys => if le x y then x :: y :: ys else y :: insertLe le x ys

/-- `sort.Float64s` modelled as insertion sort by `fle`. -/
def sortByLe (le : Nat → Nat → Bool) : List Nat → List Nat
  | [] => []
  | x :: xs => insertLe le x (sortByLe le xs)

/-- The aggregation switch of `combineZset` (lines 292–303): SUM folds `+`
from `0.0`; MIN/MAX sort and take the first/last element. -/
def aggScores (fadd : Nat → Nat → Nat) (fle : Nat → Nat → Bool) (agg : ZAgg)
    (weighted : List Nat) : Nat :=
  match agg with
  | .sum => weighted.foldl fadd 0
  | .min => (sortByLe fle weighted).headD 0
  | .max => (sortByLe fle weighted).getLastD 0

/-- The per-member scoring of `combineZset` (lines 282–303): compact the
scores of the inputs whose `exists` flag is set, then multiply the *i-th
compacted score* by `weights[i]` — the weight is selected by position in
the compacted contributor list, not by the contributing input's index —
and aggregate. -/
def combineMemberScore (fmul fadd : Nat → Nat → Nat) (fle : Nat → Nat → Bool)
    (agg : ZAgg) (weights : List Nat) (exs : List Bool) (scs : List Nat) : Nat :=
  let contrib := (exs.zip scs).filterMap (fun p => if p.1 then some p.2 else none)
  aggScores fadd fle agg (List.zipWith fmul contrib weights)

/-- The claim's reading: input `i` contributes its score multiplied by
`weights[i]` (weights matched by input position), aggregated the same way. -/
def claimMemberScore (fmul fadd : Nat → Nat → Nat) (fle : Nat → Nat → Bool)
    (agg : ZAgg) (weights : List Nat) (exs : List Bool) (scs : List Nat) : Nat :=
  aggScores fadd fle agg
    (((exs.zip scs).zip weights).filterMap
      (fun p => if p.1.1 then some (fmul p.1.2 p.2) else none))

/-- C7 (counterexample): a member present only in input number 2 (of two),
with `WEIGHTS 2 4` and AGGREGATE SUM (numbers as plain naturals, the scalar
operations instantiated with Nat `*`/`+`): the code multiplies the single
contributing score 10 by `w1 = 2`, giving 20, while the claim's
by-input-position pairing requires `10 * w2 = 40`. -/
theorem c7_counterexample_weight_of_absent_input :
    combineMemberScore Nat.mul Nat.add (fun a b => decide (a ≤ b)) .sum
      [2, 4] [false, true] [7, 10] = 20 ∧
    claimMemberScore Nat.mul Nat.add (fun a b => decide (a ≤ b)) .sum
      [2, 4] [false, true] [7, 10] = 40 ∧
    (20 : Nat) ≠ 40 :=
  ⟨rfl, rfl, by decide⟩

theorem zip_replicate_true_filterMap (scs : List Nat) :
    ((List.replicate scs.length true).zip scs).filterMap
      (fun p => if p.1 then some p.2 else none) = scs := by
  induction scs with
  | nil => rfl
  | cons x xs ih => simp [List.replicate, ih]

theorem zip_zip_replicate_true_filterMap (fmul : Nat → Nat → Nat)
    (scs ws : List Nat) :
    (((List.replicate scs.length true).zip scs).zip ws).filterMap
      (fun p => if p.1.1 then some (fmul p.1.2 p.2) else none)
      = List.zipWith fmul scs ws := by
  induction scs generalizing ws with
  | nil => rfl
  | cons x xs ih =>
    cases ws with
    | nil => rfl
    | cons w ws => simp [List.replicate, ih]

/-- C7 (amended): `combineZset` consumes weights positionally over the
compacted contributor list — the j-th input that contains the member is
weighted by `w_j` — which agrees with the claim's by-input-position pairing
exactly when every input contributes (as in every ZINTERSTORE emission,
proved here for all aggregates and scalar interpretations); and with no
AGGREGATE clause the parsed aggregate defaults to SUM with all weights
`1.0`, while an explicit clause selects SUM, MIN or MAX. -/
theorem c7_weights_by_contributor_position :
    (∀ (fmul fadd : Nat → Nat → Nat) (fle : Nat → Nat → Bool) (agg : ZAgg)
      (weights scs : List Nat),
        combineMemberScore fmul fadd fle agg weights
            (List.replicate scs.length true) scs
          = claimMemberScore fmul fadd fle agg weights
            (List.replicate scs.length true) scs) ∧
    (parseZCombineOpts pfTable [[100], [50], [97], [98]]).toOption
      = some (2, .sum, [oneBits, oneBits]) ∧
    (parseZCombineOpts pfTable
      [[100], [50], [97], [98], weightsBytes, [49], [50]]).toOption
      = some (2, .sum, [0x3FF0000000000000, 0x4000000000000000]) ∧
    (parseZCombineOpts pfTable
      [[100], [50], [97], [98], aggregateBytes, minBytes]).toOption
      = some (2, .min, [oneBits, oneBits]) ∧
    (parseZCombineOpts pfTable
      [[100], [50], [97], [98], aggregateBytes, maxBytes]).toOption
      = some (2, .max, [oneBits, oneBits]) := by
  refine ⟨?_, by decide, by decide, by decide, by decide⟩
  intro fmul fadd fle agg weights scs
  unfold combineMemberScore claimMemberScore
  rw [zip_replicate_true_filterMap, zip_zip_replicate_true_filterMap]

/-! ## The multi-key merge iterator (`set.go`: `multiSetIter`;
`zset.go`: `multiZsetIter`)

Both drivers keep one iterator per input key, and each round sort the
current members (exhausted iterators sort first as `nil`), pick the smallest
live member as the candidate, emit it once with `exists[i]`/`scores[i]`
filled for every input whose current member equals it, and advance exactly
those iterators.  We embed the driver once, polymorphic in the per-member
payload `σ` (`Unit` for `multiSetIter`, score bits for `multiZsetIter`,
whose zero default mirrors Go's zero-valued `make([]float64, …)`), over the
per-input remainder lists the store iterators would yield.  `stopEarly`
(set for intersections) breaks out before emitting once input 0 is
exhausted, exactly as the `m.key == 0 && stopEarly` check fires while
scanning the nil-first sorted member array. -/

/-- One emission: `iterSetMember` / `iterZsetMember`. -/
structure MEmission (σ : Type) where
  member : Bytes
  exs : List Bool
  scs : List σ

/-- The live current members (heads of the non-exhausted inputs). -/
def headsOf {σ : Type} (ls : List (List (Bytes × σ))) : List Bytes :=
  ls.filterMap (fun l => l.head?.map Prod.fst)

/-- The smallest byte string of a list (what sorting the member array and
taking the first non-nil entry selects). -/
def bminList : List Bytes → Option Bytes
  | [] => none
  | x :: xs =>
    some (match bminList xs with
      | none => x
      | some y => if bytesLt y x then y else x)

/-- Advance one input past the candidate: drop its current member when it
equals `c`, leave the input alone otherwise. -/
def advanceOne {σ : Type} (c : Bytes) (l : List (Bytes × σ)) : List (Bytes × σ) :=
  match l.head? with
  | some p => if p.1 = c then l.tail else l
  | none => l

/-- Advance every input whose current member is the candidate. -/
def advanceInputs {σ : Type} (c : Bytes) (ls : List (List (Bytes × σ))) :
    List (List (Bytes × σ)) :=
  ls.map (advanceOne c)

/-- The emission for candidate `c`: `exists[i]` iff input `i`'s current
member is `c`; `scores[i]` that input's current score (the zero value
otherwise, as in Go's freshly-made slices). -/
def emitOf {σ : Type} (dflt : σ) (c : Bytes) (ls : List (List (Bytes × σ))) :
    MEmission σ :=
  ⟨c, ls.map (fun l => decide (l.head?.map Prod.fst = some c)),
    ls.map (fun l => match l.head? with
      | some p => if p.1 = c then p.2 else dflt
      | none => dflt)⟩

/-- `stopEarly`'s test: the first input's iterator is exhausted. -/
def firstExhausted {σ : Type} : List (List (Bytes × σ)) → Bool
  | l0 :: _ => l0.isEmpty
  | [] => false

def totalLen {σ : Type} (ls : List (List (Bytes × σ))) : Nat :=
  (ls.map List.length).sum

/-- The merge loop, fuel-recursive; `totalLen ls + 1` fuel always suffices
because every emission consumes at least one element. -/
def multiMergeAux {σ : Type} (dflt : σ) (se : Bool) :
    Nat → List (List (Bytes × σ)) → List (MEmission σ)
  | 0, _ => []
  | fuel + 1, ls =>
    if se && firstExhausted ls then []
    else
      match bminList (headsOf ls) with
      | none => []
      | some c => emitOf dflt c ls :: multiMergeAux dflt se fuel (advanceInputs c ls)

def multiMerge {σ : Type} (dflt : σ) (se : Bool)
    (ls : List (List (Bytes × σ))) : List (MEmission σ) :=
  multiMergeAux dflt se (totalLen ls + 1) ls

/-- The member lists `multiSetIter`'s per-key iterators yield: the `SetKey`
prefix scan with the prefix stripped (`k[len(iterKeys[i].Key()):]`). -/
def setInputs (st : Store) (keys : List Bytes) : List (List (Bytes × Unit)) :=
  keys.map (fun k =>
    (setScan st k).map (fun kv => (kv.1.drop (prefixKey SetKey k).length, ())))

/-- `multiSetIter` (`set.go`) over a store and input keys. -/
def multiSetIterModel (st : Store) (keys : List Bytes) : List (MEmission Unit) :=
  multiMerge () false (setInputs st keys)

/-- One input of `multiZsetIter` (`zset.go`): when `zcard` reports a
positive cardinality the key is walked under the `ZSetKey` prefix with the
stored score bits as payload (`btof(it.Value())` reads the first 8 value
bytes); otherwise — missing key, type error, or zero card — under the
`SetKey` prefix with the documented implicit score `1.0`. -/
def zcardOrZero (st : Store) (k : Bytes) : Nat :=
  match zcard st (metaKey k) with
  | .ok c => c
  | .error _ => 0

def zsetInput (st : Store) (k : Bytes) : List (Bytes × Nat) :=
  if zcardOrZero st k > 0 then
    ((seekFrom st (prefixKey ZSetKey k)).takeWhile
      (fun kv => isPrefixOf ZSetKey k kv.1)).map
      (fun kv => (kv.1.drop (prefixKey ZSetKey k).length, beToNat (kv.2.take 8)))
  else
    (setScan st k).map (fun kv => (kv.1.drop (prefixKey SetKey k).length, oneBits))

/-- `multiZsetIter` (`zset.go`) over a store and input keys. -/
def multiZsetIterModel (st : Store) (keys : List Bytes) (se : Bool) :
    List (MEmission Nat) :=
  multiMerge 0 se (keys.map (zsetInput st))

/-! ### Order facts about the merge -/

theorem bminList_none {l : List Bytes} : bminList l = none ↔ l = [] := by
  cases l with
  | nil => simp [bminList]
  | cons x xs => simp [bminList]

theorem bminList_mem {l : List Bytes} {c : Bytes} (h : bminList l = some c) :
    c ∈ l := by
  induction l with
  | nil => simp [bminList] at h
  | cons x xs ih =>
    simp only [bminList, Option.some.injEq] at h
    rcases hx : bminList xs with - | y
    · rw [hx] at h
      simp only at h
      simp [← h]
    · rw [hx] at h
      simp only at h
      by_cases hc : bytesLt y x = true
      · rw [if_pos hc] at h
        exact List.mem_cons_of_mem _ (ih (by rw [hx, h]))
      · rw [if_neg hc] at h
        simp [← h]

theorem bminList_min : ∀ {l : List Bytes} {c : Bytes}, bminList l = some c →
    ∀ z ∈ l, bytesLt z c = false := by
  intro l
  induction l with
  | nil => intro c h; simp [bminList] at h
  | cons x xs ih =>
    intro c h z hz
    simp only [bminList, Option.some.injEq] at h
    rcases hx : bminList xs with - | y
    · rw [hx] at h
      simp only at h
      have hxs : xs = [] := bminList_none.mp hx
      subst hxs
      rcases List.mem_singleton.mp hz with rfl
      rw [← h, bytesLt_irrefl]
    · rw [hx] at h
      simp only at h
      rcases List.mem_cons.mp hz with rfl | hzz
      · by_cases hc : bytesLt y z = true
        · rw [if_pos hc] at h
          subst h
          exact bytesLt_asymm hc
        · rw [if_neg hc] at h
          subst h
          exact bytesLt_irrefl z
      · have hzy : bytesLt z y = false := ih hx z hzz
        by_cases hc : bytesLt y x = true
        · rw [if_pos hc] at h
          subst h
          exact hzy
        · rw [if_neg hc] at h
          subst h
          by_cases hzx : bytesLt z x = true
          · exfalso
            by_cases hzey : z = y
            · subst hzey
              exact hc hzx
            · rcases bytesLt_total hzey with h1 | h1
              · rw [h1] at hzy
                exact Bool.noConfusion hzy
              · exact hc (bytesLt_trans h1 hzx)
          · exact Bool.eq_false_iff.mpr hzx

/-- Strict byte order as a relation, for `Pairwise`. -/
def bLtP (a b : Bytes) : Prop := bytesLt a b = true

/-- An input list whose members are strictly ascending. -/
def MembersSorted {σ : Type} (l : List (Bytes × σ)) : Prop :=
  (l.map Prod.fst).Pairwise bLtP

def InputsSorted {σ : Type} (ls : List (List (Bytes × σ))) : Prop :=
  ∀ l ∈ ls, MembersSorted l

theorem mem_headsOf {σ : Type} {ls : List (List (Bytes × σ))} {c : Bytes} :
    c ∈ headsOf ls ↔ ∃ l ∈ ls, ∃ s, l.head? = some (c, s) := by
  unfold headsOf
  rw [List.mem_filterMap]
  constructor
  · rintro ⟨l, hl, hf⟩
    rcases hh : l.head? with - | p
    · rw [hh] at hf; simp at hf
    · rw [hh] at hf
      simp only [Option.map_some'] at hf
      rcases p with ⟨m, s⟩
      cases hf
      exact ⟨l, hl, s, hh⟩
  · rintro ⟨l, hl, s, hh⟩
    exact ⟨l, hl, by rw [hh]; rfl⟩

theorem head?_mem {σ : Type} {l : List (Bytes × σ)} {p : Bytes × σ}
    (h : l.head? = some p) : p ∈ l := by
  cases l with
  | nil => simp at h
  | cons q r =>
    simp only [List.head?] at h
    cases h
    simp

theorem head?_mem_map_fst {σ : Type} {l : List (Bytes × σ)} {p : Bytes × σ}
    (h : l.head? = some p) : p.1 ∈ l.map Prod.fst := by
  cases l with
  | nil => simp at h
  | cons q r =>
    simp only [List.head?] at h
    cases h
    simp

theorem head?_none_nil {σ : Type} {l : List (Bytes × σ)} (h : l.head? = none) :
    l = [] := by
  cases l with
  | nil => rfl
  | cons q r => simp at h

/-- In a strictly ascending input every member is the head or strictly after
it. -/
theorem sorted_head_le {σ : Type} {l : List (Bytes × σ)} {p : Bytes × σ}
    {m : Bytes} (hs : MembersSorted l) (hh : l.head? = some p)
    (hm : m ∈ l.map Prod.fst) : m = p.1 ∨ bLtP p.1 m := by
  cases l with
  | nil => simp at hh
  | cons q r =>
    simp only [List.head?] at hh
    cases hh
    unfold MembersSorted at hs
    simp only [List.map_cons, List.pairwise_cons] at hs
    simp only [List.map_cons, List.mem_cons] at hm
    rcases hm with rfl | hm
    · exact Or.inl rfl
    · exact Or.inr (hs.1 m hm)

/-- Everything in an advanced input was in the input. -/
theorem advanceOne_members_sub {σ : Type} {c : Bytes} {l : List (Bytes × σ)}
    {m : Bytes} (h : m ∈ (advanceOne c l).map Prod.fst) : m ∈ l.map Prod.fst := by
  unfold advanceOne at h
  cases l with
  | nil => simp at h
  | cons p r =>
    simp only [List.head?] at h
    by_cases hp : p.1 = c
    · rw [if_pos hp] at h
      simp only [List.tail_cons] at h
      simp [h]
    · rwa [if_neg hp] at h

theorem advanceOne_pairs_sub {σ : Type} {c : Bytes} {l : List (Bytes × σ)}
    {q : Bytes × σ} (h : q ∈ advanceOne c l) : q ∈ l := by
  unfold advanceOne at h
  cases l with
  | nil => simp at h
  | cons p r =>
    simp only [List.head?] at h
    by_cases hp : p.1 = c
    · rw [if_pos hp] at h
      simp only [List.tail_cons] at h
      simp [h]
    · rwa [if_neg hp] at h

theorem advanceOne_sorted {σ : Type} {c : Bytes} {l : List (Bytes × σ)}
    (h : MembersSorted l) : MembersSorted (advanceOne c l) := by
  unfold MembersSorted advanceOne
  cases l with
  | nil => exact h
  | cons p r =>
    simp only [List.head?]
    by_cases hp : p.1 = c
    · rw [if_pos hp]
      simp only [List.tail_cons]
      unfold MembersSorted at h
      simp only [List.map_cons, List.pairwise_cons] at h
      exact h.2
    · rwa [if_neg hp]

theorem advance_sorted {σ : Type} {c : Bytes} {ls : List (List (Bytes × σ))}
    (h : InputsSorted ls) : InputsSorted (advanceInputs c ls) := by
  intro l' hl'
  rcases List.mem_map.mp hl' with ⟨l, hl, rfl⟩
  exact advanceOne_sorted (h l hl)

/-- After advancing past the round's candidate (the minimum of the live
heads), every remaining member of every input is strictly greater than the
candidate. -/
theorem advanceOne_members_gt {σ : Type} {c : Bytes} {ls : List (List (Bytes × σ))}
    (hs : InputsSorted ls) (hmin : bminList (headsOf ls) = some c)
    {l : List (Bytes × σ)} (hl : l ∈ ls) :
    ∀ m ∈ (advanceOne c l).map Prod.fst, bLtP c m := by
  intro m hm
  cases hcl : l with
  | nil => rw [hcl] at hm; simp [advanceOne] at hm
  | cons p r =>
    subst hcl
    have hpin : p.1 ∈ headsOf ls := mem_headsOf.mpr ⟨_, hl, p.2, rfl⟩
    have hple : bytesLt p.1 c = false := bminList_min hmin _ hpin
    have hsl := hs _ hl
    unfold MembersSorted at hsl
    simp only [List.map_cons, List.pairwise_cons] at hsl
    unfold advanceOne at hm
    simp only [List.head?] at hm
    by_cases hp : p.1 = c
    · rw [if_pos hp] at hm
      simp only [List.tail_cons] at hm
      have := hsl.1 m hm
      rwa [hp] at this
    · rw [if_neg hp] at hm
      have hcp : bLtP c p.1 := by
        rcases bytesLt_total (fun he => hp he.symm) with h1 | h1
        · exact h1
        · rw [h1] at hple; exact Bool.noConfusion hple
      simp only [List.map_cons, List.mem_cons] at hm
      rcases hm with rfl | hm
      · exact hcp
      · exact bytesLt_trans hcp (hsl.1 m hm)

/-- For a member other than the candidate, advancing changes nothing about
membership. -/
theorem advanceOne_mem_iff {σ : Type} {c m : Bytes} {l : List (Bytes × σ)}
    (hne : m ≠ c) : m ∈ (advanceOne c l).map Prod.fst ↔ m ∈ l.map Prod.fst := by
  unfold advanceOne
  cases l with
  | nil => simp
  | cons p r =>
    simp only [List.head?]
    by_cases hp : p.1 = c
    · rw [if_pos hp]
      simp only [List.tail_cons, List.map_cons, List.mem_cons]
      constructor
      · exact Or.inr
      · rintro (rfl | h)
        · exact absurd hp hne
        · exact h
    · rw [if_neg hp]

/-- Every member any run of the merge loop emits is a member of one of the
inputs it started from. -/
theorem emitted_member_mem {σ : Type} (dflt : σ) (se : Bool) :
    ∀ (fuel : Nat) (ls : List (List (Bytes × σ))) (e : MEmission σ),
      e ∈ multiMergeAux dflt se fuel ls → ∃ l ∈ ls, e.member ∈ l.map Prod.fst := by
  intro fuel
  induction fuel with
  | zero => intro ls e he; simp [multiMergeAux] at he
  | succ fuel ih =>
    intro ls e he
    unfold multiMergeAux at he
    by_cases hse : (se && firstExhausted ls) = true
    · rw [if_pos hse] at he; simp at he
    · rw [if_neg hse] at he
      rcases hmin : bminList (headsOf ls) with - | c
      · rw [hmin] at he; simp at he
      · rw [hmin] at he
        rcases List.mem_cons.mp he with rfl | he'
        · rcases mem_headsOf.mp (bminList_mem hmin) with ⟨l, hl, s, hh⟩
          exact ⟨l, hl, by simpa [emitOf] using head?_mem_map_fst hh⟩
        · rcases ih _ _ he' with ⟨l', hl', hm⟩
          rcases List.mem_map.mp hl' with ⟨l, hl, rfl⟩
          exact ⟨l, hl, advanceOne_members_sub hm⟩

theorem getD_map_of_lt {α β : Type} (l : List α) (f : α → β) (d : β) (d' : α)
    (i : Nat) (h : i < l.length) : (l.map f).getD i d = f (l.getD i d') := by
  rw [List.getD_eq_getElem _ _ (by simpa using h), List.getD_eq_getElem _ _ h,
    List.getElem_map]

theorem getD_mem_of_lt {α : Type} (l : List α) (d : α) (i : Nat)
    (h : i < l.length) : l.getD i d ∈ l := by
  rw [List.getD_eq_getElem _ _ h]
  exact List.getElem_mem _

/-- The heart of C5: whatever the fuel, the stream of emitted members is
strictly ascending in byte order (so every member is emitted at most once),
and each emission fills `exists[i]` exactly for the inputs that contain the
member, with `scores[i]` the payload stored for the member in input `i`. -/
theorem multiMergeAux_props {σ : Type} (dflt : σ) (se : Bool) :
    ∀ (fuel : Nat) (ls : List (List (Bytes × σ))), InputsSorted ls →
      (((multiMergeAux dflt se fuel ls).map MEmission.member).Pairwise bLtP ∧
       ∀ e ∈ multiMergeAux dflt se fuel ls,
         e.exs.length = ls.length ∧ e.scs.length = ls.length ∧
         ∀ i, i < ls.length →
           ((e.exs.getD i false = true ↔ e.member ∈ (ls.getD i []).map Prod.fst) ∧
            (e.exs.getD i false = true → (e.member, e.scs.getD i dflt) ∈ ls.getD i []))) := by
  intro fuel
  induction fuel with
  | zero => intro ls _; constructor <;> simp [multiMergeAux]
  | succ fuel ih =>
    intro ls hs
    unfold multiMergeAux
    by_cases hse : (se && firstExhausted ls) = true
    · rw [if_pos hse]; constructor <;> simp
    · rw [if_neg hse]
      rcases hmin : bminList (headsOf ls) with - | c
      · constructor <;> simp
      · have hs' : InputsSorted (advanceInputs c ls) := advance_sorted hs
        obtain ⟨ihPW, ihE⟩ := ih (advanceInputs c ls) hs'
        have hgt : ∀ e ∈ multiMergeAux dflt se fuel (advanceInputs c ls),
            bLtP c e.member := by
          intro e he
          rcases emitted_member_mem dflt se _ _ _ he with ⟨l', hl', hm⟩
          rcases List.mem_map.mp hl' with ⟨l, hl, rfl⟩
          exact advanceOne_members_gt hs hmin hl _ hm
        constructor
        · simp only [List.map_cons, List.pairwise_cons]
          refine ⟨?_, ihPW⟩
          intro b hb
          rcases List.mem_map.mp hb with ⟨e, he, rfl⟩
          exact hgt e he
        · intro e he
          rcases List.mem_cons.mp he with rfl | he'
          · have hmember : (emitOf dflt c ls).member = c := rfl
            refine ⟨by simp [emitOf], by simp [emitOf], ?_⟩
            intro i hi
            have hli : ls.getD i [] ∈ ls := getD_mem_of_lt ls [] i hi
            have hexs : (emitOf dflt c ls).exs.getD i false
                = decide ((ls.getD i []).head?.map Prod.fst = some c) := by
              unfold emitOf
              exact getD_map_of_lt ls _ false [] i hi
            have hscs : (emitOf dflt c ls).scs.getD i dflt
                = (match (ls.getD i []).head? with
                   | some p => if p.1 = c then p.2 else dflt
                   | none => dflt) := by
              unfold emitOf
              exact getD_map_of_lt ls _ dflt [] i hi
            constructor
            · rw [hexs, hmember]
              simp only [decide_eq_true_eq]
              constructor
              · intro hh
                rcases hh2 : (ls.getD i []).head? with - | p
                · rw [hh2] at hh; simp at hh
                · rw [hh2] at hh
                  simp only [Option.map_some', Option.some.injEq] at hh
                  have := head?_mem_map_fst hh2
                  rwa [hh] at this
              · intro hmem
                rcases hh2 : (ls.getD i []).head? with - | p
                · rw [head?_none_nil hh2] at hmem
                  simp at hmem
                · simp only [Option.map_some', Option.some.injEq]
                  have hpin : p.1 ∈ headsOf ls := mem_headsOf.mpr ⟨_, hli, p.2, hh2⟩
                  have hple : bytesLt p.1 c = false := bminList_min hmin _ hpin
                  rcases sorted_head_le (hs _ hli) hh2 hmem with rfl | hlt
                  · rfl
                  · exfalso
                    unfold bLtP at hlt
                    rw [hlt] at hple
                    exact Bool.noConfusion hple
            · rw [hexs, hmember]
              simp only [decide_eq_true_eq]
              intro hh
              rcases hh2 : (ls.getD i []).head? with - | p
              · rw [hh2] at hh; simp at hh
              · rw [hh2] at hh
                simp only [Option.map_some', Option.some.injEq] at hh
                have hscs2 : (emitOf dflt c ls).scs.getD i dflt
                    = (if p.1 = c then p.2 else dflt) := by rw [hscs, hh2]
                rw [hscs2, if_pos hh]
                obtain ⟨pm, ps⟩ := p
                cases hh
                exact head?_mem hh2
          · obtain ⟨hel, hsl2, hslots⟩ := ihE e he'
            have hlen : (advanceInputs c ls).length = ls.length := by
              unfold advanceInputs; simp
            refine ⟨by rw [hel, hlen], by rw [hsl2, hlen], ?_⟩
            intro i hi
            have hi' : i < (advanceInputs c ls).length := by rw [hlen]; exact hi
            have hadv : (advanceInputs c ls).getD i [] = advanceOne c (ls.getD i []) := by
              unfold advanceInputs
              exact getD_map_of_lt ls _ [] [] i hi
            have hne : e.member ≠ c := by
              have := hgt e he'
              unfold bLtP at this
              exact fun hcontra => ne_of_bytesLt this (hcontra ▸ rfl)
            obtain ⟨hiff, hsc⟩ := hslots i hi'
            rw [hadv] at hiff hsc
            constructor
            · rw [hiff]
              exact advanceOne_mem_iff hne
            · intro hx
              exact advanceOne_pairs_sub (hsc hx)

/-- Advancing past the round's candidate consumes at least one element (the
candidate is some input's head), so the merge loop's fuel of
`totalLen ls + 1` always suffices. -/
theorem advance_totalLen_lt {σ : Type} {c : Bytes} {ls : List (List (Bytes × σ))}
    (hmin : bminList (headsOf ls) = some c) :
    totalLen (advanceInputs c ls) < totalLen ls := by
  unfold totalLen advanceInputs
  rw [List.map_map]
  have h1 : ∀ l ∈ ls, (List.length ∘ advanceOne c) l ≤ List.length l := by
    intro l _
    simp only [Function.comp]
    unfold advanceOne
    cases l with
    | nil => exact Nat.le_refl _
    | cons p r =>
      simp only [List.head?]
      by_cases hp : p.1 = c
      · rw [if_pos hp]
        simp
      · rw [if_neg hp]
  have h2 : ∃ l ∈ ls, (List.length ∘ advanceOne c) l < List.length l := by
    rcases mem_headsOf.mp (bminList_mem hmin) with ⟨l, hl, s, hh⟩
    refine ⟨l, hl, ?_⟩
    simp only [Function.comp]
    unfold advanceOne
    rw [hh]
    show (if (c, s).1 = c then l.tail else l).length < l.length
    rw [if_pos rfl]
    cases l with
    | nil => simp at hh
    | cons p r =>
      simp only [List.head?] at hh
      cases hh
      simp
  exact List.sum_lt_sum _ _ h1 h2

/-- Completeness of the union-mode merge (`stopEarly = false`, as SUNION and
ZUNIONSTORE run it): with sufficient fuel, every member present in any
input is emitted. -/
theorem multiMergeAux_complete {σ : Type} (dflt : σ) :
    ∀ (fuel : Nat) (ls : List (List (Bytes × σ))), InputsSorted ls →
      totalLen ls < fuel →
      ∀ (m : Bytes) (l : List (Bytes × σ)), l ∈ ls → m ∈ l.map Prod.fst →
        m ∈ (multiMergeAux dflt false fuel ls).map MEmission.member := by
  intro fuel
  induction fuel with
  | zero => intro ls _ hf; exact absurd hf (Nat.not_lt_zero _)
  | succ fuel ih =>
    intro ls hs hf m l hl hm
    have hlne : l ≠ [] := by
      intro hcontra
      rw [hcontra] at hm
      simp at hm
    rcases hh : l.head? with - | p
    · exact absurd (head?_none_nil hh) hlne
    have hpin : p.1 ∈ headsOf ls := mem_headsOf.mpr ⟨l, hl, p.2, hh⟩
    rcases hmin : bminList (headsOf ls) with - | c
    · rw [bminList_none.mp hmin] at hpin
      simp at hpin
    unfold multiMergeAux
    rw [hmin]
    simp only [Bool.false_and, Bool.false_eq_true, if_false]
    by_cases hmc : m = c
    · subst hmc
      simp [emitOf]
    · have hcm : bLtP c m := by
        have hplec : bytesLt p.1 c = false := bminList_min hmin _ hpin
        have hcp : c = p.1 ∨ bLtP c p.1 := by
          by_cases hce : c = p.1
          · exact Or.inl hce
          · rcases bytesLt_total hce with h1 | h1
            · exact Or.inr h1
            · rw [h1] at hplec; exact Bool.noConfusion hplec
        rcases sorted_head_le (hs _ hl) hh hm with rfl | hpm
        · rcases hcp with hcp | hcp
          · exact absurd hcp.symm hmc
          · exact hcp
        · rcases hcp with rfl | hcp
          · exact hpm
          · exact bytesLt_trans hcp hpm
      have hm' : m ∈ (advanceOne c l).map Prod.fst := (advanceOne_mem_iff hmc).mpr hm
      have hl' : advanceOne c l ∈ advanceInputs c ls := List.mem_map_of_mem _ hl
      have := ih (advanceInputs c ls) (advance_sorted hs)
        (Nat.lt_of_lt_of_le (advance_totalLen_lt hmin) (Nat.lt_succ_iff.mp hf))
        m (advanceOne c l) hl' hm'
      simp only [List.map_cons, List.mem_cons]
      exact Or.inr this

/-! ### From the sorted store to sorted inputs -/

/-- Keys with a common `take`-prefix stay ordered after the prefix is
stripped. -/
theorem bytesLt_drop_of_take_eq {a b p : Bytes} {n : Nat}
    (ha : a.take n = p) (hb : b.take n = p) (h : bytesLt a b = true) :
    bytesLt (a.drop n) (b.drop n) = true := by
  have ha' : p ++ a.drop n = a := by rw [← ha]; exact List.take_append_drop n a
  have hb' : p ++ b.drop n = b := by rw [← hb]; exact List.take_append_drop n b
  rw [← ha', ← hb', bytesLt_append_left] at h
  exact h

/-- A prefix scan of a well-formed store, with the prefix stripped from each
record key, yields strictly ascending members. -/
theorem scanMembers_sorted (st : Store) (hwf : StoreWF st) (t : Nat) (k : Bytes) :
    (((seekFrom st (prefixKey t k)).takeWhile (fun kv => isPrefixOf t k kv.1)).map
      (fun kv => kv.1.drop (prefixKey t k).length)).Pairwise bLtP := by
  set L := (seekFrom st (prefixKey t k)).takeWhile (fun kv => isPrefixOf t k kv.1) with hL
  have hsub : List.Sublist L st :=
    (List.takeWhile_sublist _).trans (List.dropWhile_sublist _)
  have hkeys : L.Pairwise (fun kv kv' : Bytes × Bytes => bLtP kv.1 kv'.1) := by
    have := List.pairwise_map.mp hwf
    exact this.sublist hsub
  rw [List.pairwise_map]
  refine hkeys.imp_of_mem ?_
  intro a b hath hbth hab
  rw [hL] at hath hbth
  have hpa := List.mem_takeWhile_imp hath
  have hpb := List.mem_takeWhile_imp hbth
  simp only at hpa hpb
  unfold isPrefixOf at hpa hpb
  rw [Bool.and_eq_true, decide_eq_true_eq, decide_eq_true_eq] at hpa hpb
  exact bytesLt_drop_of_take_eq hpa.2 hpb.2 hab

theorem setInputs_sorted (st : Store) (hwf : StoreWF st) (keys : List Bytes) :
    InputsSorted (setInputs st keys) := by
  intro l hl
  rcases List.mem_map.mp hl with ⟨k, -, rfl⟩
  unfold MembersSorted
  rw [List.map_map]
  exact scanMembers_sorted st hwf SetKey k

theorem zsetInput_sorted (st : Store) (hwf : StoreWF st) (keys : List Bytes) :
    InputsSorted (keys.map (zsetInput st)) := by
  intro l hl
  rcases List.mem_map.mp hl with ⟨k, -, rfl⟩
  unfold MembersSorted zsetInput
  split
  · rw [List.map_map]
    exact scanMembers_sorted st hwf ZSetKey k
  · unfold setScan
    rw [List.map_map]
    exact scanMembers_sorted st hwf SetKey k

/-- C5: over any well-formed store and any list of input keys, both merge
iterators (the set driver used by SUNION and the zset driver used by
ZUNIONSTORE/ZINTERSTORE, in both its stop-early modes) emit a stream of
members that is strictly ascending in byte-lexicographic order — so a
member occurring in several inputs is emitted at most once, in a single
emission — and that emission's `exists[i]` flag is set exactly for the
inputs containing the member, with `scores[i]` the score those inputs
store for it.  In union mode (`stopEarly = false`) the stream is also
complete: every member of every input is emitted, hence exactly once. -/
theorem c5_merge_iterators_sorted_single_emission (st : Store) (keys : List Bytes)
    (se : Bool) (hwf : StoreWF st) :
    (((multiSetIterModel st keys).map MEmission.member).Pairwise bLtP ∧
      ∀ e ∈ multiSetIterModel st keys, ∀ i, i < (setInputs st keys).length →
        (e.exs.getD i false = true ↔
          e.member ∈ ((setInputs st keys).getD i []).map Prod.fst)) ∧
    (((multiZsetIterModel st keys se).map MEmission.member).Pairwise bLtP ∧
      ∀ e ∈ multiZsetIterModel st keys se, ∀ i, i < (keys.map (zsetInput st)).length →
        ((e.exs.getD i false = true ↔
            e.member ∈ ((keys.map (zsetInput st)).getD i []).map Prod.fst) ∧
         (e.exs.getD i false = true →
            (e.member, e.scs.getD i 0) ∈ (keys.map (zsetInput st)).getD i []))) ∧
    ((∀ (m : Bytes) (l : List (Bytes × Unit)), l ∈ setInputs st keys →
        m ∈ l.map Prod.fst →
        m ∈ (multiSetIterModel st keys).map MEmission.member) ∧
     (∀ (m : Bytes) (l : List (Bytes × Nat)), l ∈ keys.map (zsetInput st) →
        m ∈ l.map Prod.fst →
        m ∈ (multiZsetIterModel st keys false).map MEmission.member)) := by
  refine ⟨?_, ?_, ?_, ?_⟩
  · obtain ⟨hpw, he⟩ := multiMergeAux_props () false (totalLen (setInputs st keys) + 1)
      (setInputs st keys) (setInputs_sorted st hwf keys)
    exact ⟨hpw, fun e hme i hi => ((he e hme).2.2 i hi).1⟩
  · obtain ⟨hpw, he⟩ := multiMergeAux_props 0 se (totalLen (keys.map (zsetInput st)) + 1)
      (keys.map (zsetInput st)) (zsetInput_sorted st hwf keys)
    exact ⟨hpw, fun e hme i hi => (he e hme).2.2 i hi⟩
  · exact fun m l hl hm => multiMergeAux_complete () _ _
      (setInputs_sorted st hwf keys) (Nat.lt_succ_self _) m l hl hm
  · exact fun m l hl hm => multiMergeAux_complete 0 _ _
      (zsetInput_sorted st hwf keys) (Nat.lt_succ_self _) m l hl hm

/-- Witness for C5: a concrete two-set store (`a = {x}`, `b = {x}`), checked
well-formed, instantiating the theorem. -/
theorem c5_merge_iterators_witness :
    StoreWF [(bufKey SetKey [97] [120], []), (bufKey SetKey [98] [120], [])] ∧
    (((multiSetIterModel
        [(bufKey SetKey [97] [120], []), (bufKey SetKey [98] [120], [])]
        [[97], [98]]).map MEmission.member).Pairwise bLtP ∧
      ∀ e ∈ multiSetIterModel
          [(bufKey SetKey [97] [120], []), (bufKey SetKey [98] [120], [])]
          [[97], [98]],
        ∀ i, i < (setInputs
            [(bufKey SetKey [97] [120], []), (bufKey SetKey [98] [120], [])]
            [[97], [98]]).length →
          (e.exs.getD i false = true ↔
            e.member ∈ ((setInputs
              [(bufKey SetKey [97] [120], []), (bufKey SetKey [98] [120], [])]
              [[97], [98]]).getD i []).map Prod.fst)) :=
  ⟨by decide,
    (c5_merge_iterators_sorted_single_emission
      [(bufKey SetKey [97] [120], []), (bufKey SetKey [98] [120], [])]
      [[97], [98]] false (by decide)).1⟩

end SetDB
